import Mathlib

/-!
Verification of the xscale spectral/fitting core against its specification.

The Python sources `xscale/spectral/fft.py` and `xscale/signal/fitting.py` are
shallowly embedded below.  Numeric coordinate and normalization arithmetic is
modelled over `ℚ` (the code only forms differences, divisions and products of
coordinate values); the transcendental parts of the harmonic fit are modelled
over `ℝ`.  The dask data arrays themselves are kept symbolic: the embedding
records, per dimension, which transform the code applies (`rfft`, `fft`,
fft-shift of the data axis) together with the frequency coordinates the code
attaches, which is exactly the information the verified claims speak about.
-/

namespace Xscale

/-! ### numpy frequency-grid helpers (`np.fft.rfftfreq`, `np.fft.fftfreq`,
`np.fft.fftshift`) as used by `_fft` -/

/-- Value of `np.fft.fftfreq(n, d)` at index `i`:
frequencies `[0, 1, ..., ceil(n/2)-1, -(n//2), ..., -1] / (d*n)`. -/
def fftfreqVal (n : ℕ) (d : ℚ) (i : ℕ) : ℚ :=
  if i < (n + 1) / 2 then (i : ℚ) / (d * n) else ((i : ℚ) - n) / (d * n)

/-- Embedding of `np.fft.fftfreq(n, d)`. -/
def fftfreq (n : ℕ) (d : ℚ) : List ℚ :=
  (List.range n).map (fftfreqVal n d)

/-- Embedding of `np.fft.rfftfreq(n, d)`: `arange(n//2 + 1) / (d*n)`. -/
def rfftfreq (n : ℕ) (d : ℚ) : List ℚ :=
  (List.range (n / 2 + 1)).map (fun i : ℕ => (i : ℚ) / (d * n))

/-- Embedding of `np.fft.fftshift` on a 1-d array: `np.roll(x, n//2)`,
written as the resulting halves-swap `x[n - n//2 :] ++ x[: n - n//2]`. -/
def npFftshift {α : Type} (l : List α) : List α :=
  l.drop (l.length - l.length / 2) ++ l.take (l.length - l.length / 2)

/-- Index list built by the dask `_fftshift` helper:
`np.concatenate((np.arange(p2, n), np.arange(p2)))` with `p2 = (n+1)//2`. -/
def fftshiftIndices (n : ℕ) : List ℕ :=
  List.range' ((n + 1) / 2) (n - (n + 1) / 2) ++ List.range ((n + 1) / 2)

/-- Embedding of `da.take(x, mylist, axis)` along one axis of the data. -/
def takeIdx {α : Type} (l : List α) (idx : List ℕ) : List α :=
  idx.filterMap (fun i => l[i]?)

/-! ### data model: the labeled input array -/

/-- A labeled input array (`xarray.DataArray`) as consumed by `fft`:
named ordered dimensions, a length and a coordinate vector per dimension,
whether the stored values are complex, and the optional array name.
The numeric entries themselves stay symbolic. -/
structure InArray where
  dims : List String
  length : String → ℕ
  coord : String → List ℚ
  isComplex : Bool
  name : Option String

/-- Per-dimension transform actions `_fft` performs on the data
(`da.fft.rfft`, `da.fft.fft`, and the `_fftshift` data rotation). -/
inductive FftOp where
  | rfft (dim : String)
  | cfft (dim : String)
  | shiftData (dim : String)
deriving DecidableEq

/-- Modelled from the spec: `_utils.get_dx` (the `_utils` module is not part
of the sources) infers the resolution of a dimension from the spacing of its
coordinate values. -/
def get_dx (arr : InArray) (di : String) : ℚ :=
  match arr.coord di with
  | a :: b :: _ => b - a
  | _ => 0

/-- Resolution used by `_fft` for dimension `di`:
`if dx[di] is None: dx[di] = _utils.get_dx(array, di)`. -/
def dxRes (arr : InArray) (dxOpt : String → Option ℚ) (di : String) : ℚ :=
  match dxOpt di with
  | some v => v
  | none => get_dx arr di

/-- Warning text issued by `_fft` for a requested dimension that is absent. -/
def warnMsg (di : String) : String :=
  "Cannot find dimension " ++ di ++ " in DataArray"

/-- State threaded through the `for di in dim` loop of `_fft`:
the coordinate dictionary, the transform trace on the data, the warnings
issued so far, and the `first` flag. -/
structure FftState where
  coords : String → Option (List ℚ)
  ops : List FftOp
  warns : List String
  first : Bool

/-- One iteration of the `for di in dim` loop of `_fft`.  On the first
present dimension of a real-valued array it uses `rfft` with `rfftfreq`
coordinates; otherwise it uses the complex `fft` with `fftfreq` coordinates,
shifting both the coordinate and the data axis when `shift` is true.  A
requested dimension absent from the array only produces a warning. -/
def fftStep (arr : InArray) (nfft : String → ℕ) (dxOpt : String → Option ℚ)
    (shift : Bool) (st : FftState) (di : String) : FftState :=
  if di ∈ arr.dims then
    if st.first && !arr.isComplex then
      { st with
        coords := fun k =>
          if k = "f_" ++ di then some (rfftfreq (nfft di) (dxRes arr dxOpt di))
          else st.coords k,
        ops := st.ops ++ [FftOp.rfft di],
        first := false }
    else
      let base := fftfreq (nfft di) (dxRes arr dxOpt di)
      let freqc := if shift then npFftshift base else base
      { st with
        coords := fun k => if k = "f_" ++ di then some freqc else st.coords k,
        ops := st.ops ++ [FftOp.cfft di] ++
          (if shift then [FftOp.shiftData di] else []),
        first := false }
  else
    { st with warns := st.warns ++ [warnMsg di] }

/-- Coordinates of the untransformed dimensions, copied through by `_fft`
before its transform loop. -/
def baseCoords (arr : InArray) (dim : List String) : String → Option (List ℚ) :=
  fun k => if k ∈ arr.dims ∧ k ∉ dim then some (arr.coord k) else none

/-- Output dimension names of `_fft`: dimensions in the transform set are
renamed `f_<dim>`, the others kept. -/
def spectrumDims (arr : InArray) (dim : List String) : List String :=
  arr.dims.map (fun di => if di ∈ dim then "f_" ++ di else di)

/-- Embedding of the `_fft` transform loop: fold `fftStep` over the requested
dimension list, starting from the untransformed coordinates with an empty
trace and `first = True`. -/
def fftRaw (arr : InArray) (nfft : String → ℕ) (dxOpt : String → Option ℚ)
    (dim : List String) (shift : Bool) : FftState :=
  dim.foldl (fftStep arr nfft dxOpt shift)
    { coords := baseCoords arr dim, ops := [], warns := [], first := true }

/-! ### `_compute_norm_factor` and the `fft` entry point -/

/-- Errors surfaced by the embedded pipeline: the two `NotImplementedError`
raises (named `NotSupportedError` in the spec) and the Python `KeyError` /
`IndexError` that coordinate lookups can raise. -/
inductive SpecError where
  | notSupportedLinearDetrend
  | notSupportedTapering
  | keyError (key : String)
  | indexError
deriving DecidableEq

/-- Embedding of `np.diff(coord)[0]`: difference of the first two entries,
an `IndexError` when fewer than two exist. -/
def diffHead : List ℚ → Except SpecError ℚ
  | a :: b :: _ => Except.ok (b - a)
  | _ => Except.error SpecError.indexError

/-- One iteration of the `for di in dim` loop of `_compute_norm_factor`:
`df = np.diff(array[key])[0]; s1 = nfft[di]; s2 = s1;` with key `f_<di>`;
`ps_factor /= s1 ** 2; psd_factor /= df * s2`.  Looking up a missing
`f_<dim>` coordinate is a `KeyError`. -/
def normStep (coords : String → Option (List ℚ)) (nfft : String → ℕ)
    (acc : ℚ × ℚ) (di : String) : Except SpecError (ℚ × ℚ) :=
  match coords ("f_" ++ di) with
  | none => Except.error (SpecError.keyError ("f_" ++ di))
  | some c =>
    match diffHead c with
    | Except.error e => Except.error e
    | Except.ok df =>
      let s1 : ℚ := (nfft di : ℚ)
      Except.ok (acc.1 / s1 ^ 2, acc.2 / (df * s1))

/-- Embedding of `_compute_norm_factor`, accumulating the two factors over
the requested dimensions starting from the incoming attribute values
(a fresh spectrum has no factor attributes, so `fft` starts them at 1). -/
def computeNormFactor (coords : String → Option (List ℚ)) (nfft : String → ℕ) :
    List String → ℚ × ℚ → Except SpecError (ℚ × ℚ)
  | [], acc => Except.ok acc
  | di :: rest, acc =>
    match normStep coords nfft acc di with
    | Except.error e => Except.error e
    | Except.ok acc' => computeNormFactor coords nfft rest acc'

/-- Result of the `fft` entry point: the coordinate dictionary, output
dimension names, the transform trace, warnings, the two normalization
attributes and the result name. -/
structure SpecResult where
  coords : String → Option (List ℚ)
  dims : List String
  ops : List FftOp
  warns : List String
  psFactor : ℚ
  psdFactor : ℚ
  resName : String

/-- Embedding of the `fft` entry point.  The `nfft` default (the
own length) is Modelled from the spec: `_utils.infer_n_and_dims` /
`_utils.infer_arg` are not part of the sources and per the spec default a
missing `nfft` entry to the current length of the dimension and pass the
requested dimension list through.  `detrend=zeromean` only alters the
symbolic data values, so it leaves the embedded state unchanged;
`detrend=linear` and `tapering=True` raise before any transform. -/
def fft (arr : InArray) (nfftOpt : String → Option ℕ) (dim : List String)
    (dxOpt : String → Option ℚ) (detrend : Option String) (tapering : Bool)
    (shift : Bool) : Except SpecError SpecResult :=
  let nfft : String → ℕ := fun di => (nfftOpt di).getD (arr.length di)
  if detrend = some "linear" then Except.error SpecError.notSupportedLinearDetrend
  else if tapering then Except.error SpecError.notSupportedTapering
  else
    let st := fftRaw arr nfft dxOpt dim shift
    match computeNormFactor st.coords nfft dim (1, 1) with
    | Except.error e => Except.error e
    | Except.ok pq =>
      Except.ok { coords := st.coords, dims := spectrumDims arr dim,
                  ops := st.ops, warns := st.warns,
                  psFactor := pq.1, psdFactor := pq.2, resName := "spectrum" }

/-! ### the power estimators `ps` and `psd` -/

/-- A complex spectrum entry, with exact rational parts (the embedding keeps
data values symbolic, so the element-level facts are stated for an arbitrary
spectrum entry). -/
structure Cx where
  re : ℚ
  im : ℚ

/-- Complex multiplication. -/
def Cx.mul (x y : Cx) : Cx :=
  ⟨x.re * y.re - x.im * y.im, x.re * y.im + x.im * y.re⟩

/-- Complex conjugation (`da.conj`). -/
def Cx.conj (x : Cx) : Cx := ⟨x.re, -x.im⟩

/-- Result of `ps` / `psd`: the underlying spectrum, the per-element
post-processing `(spec * conj(spec)).real * factor`, and the output name. -/
structure PsResult where
  base : SpecResult
  elem : Cx → ℚ
  outName : String

/-- Embedding of `ps`: run `fft`, multiply by the conjugate, keep the real
part and scale by the stored `ps_factor`; name `PS` or `PS_<name>`. -/
def ps (arr : InArray) (nfftOpt : String → Option ℕ) (dim : List String)
    (dxOpt : String → Option ℚ) (detrend : Option String) (tapering : Bool)
    (shift : Bool) : Except SpecError PsResult :=
  (fft arr nfftOpt dim dxOpt detrend tapering shift).map (fun spec =>
    { base := spec,
      elem := fun z => (z.mul z.conj).re * spec.psFactor,
      outName := match arr.name with
        | none => "PS"
        | some nm => "PS_" ++ nm })

/-- Embedding of `psd`: identical to `ps` but scaled by `psd_factor` and
named `PSD` / `PSD_<name>`. -/
def psd (arr : InArray) (nfftOpt : String → Option ℕ) (dim : List String)
    (dxOpt : String → Option ℚ) (detrend : Option String) (tapering : Bool)
    (shift : Bool) : Except SpecError PsResult :=
  (fft arr nfftOpt dim dxOpt detrend tapering shift).map (fun spec =>
    { base := spec,
      elem := fun z => (z.mul z.conj).re * spec.psdFactor,
      outName := match arr.name with
        | none => "PSD"
        | some nm => "PSD_" ++ nm })

/-! ### embedding of `xscale/signal/fitting.py`: `sinfit` and `sinval`

The least-squares solver (`da.linalg.lstsq`) is an external collaborator of
the repository; the embedding represents its output as any coefficient
vector minimizing the residual (`IsLstsqSol`). -/

/-- The Python in-place `periods.sort(reverse=True)`: descending sort. -/
def sortDesc (l : List ℚ) : List ℚ := List.insertionSort (fun a b => a ≥ b) l

/-- Final state of the caller-supplied `periods` argument after `sinfit` returns:
`sinfit` sorts that list in place (`periods.sort(reverse=True)`)
before building the design matrix, and never rebinds it afterwards. -/
def sinfitPeriodsAfter (periods : List ℚ) : List ℚ := sortDesc periods

/-- Frequencies used by `sinfit`: `freqs = 1. / periods` after the in-place
descending sort, hence in ascending frequency order for positive periods. -/
def sinfitFreqs (periods : List ℚ) : List ℚ :=
  (sortDesc periods).map (fun p => 1 / p)

/-- Number of design-matrix columns: `n = 2 * len(periods) + 1`. -/
def sinfitN (periods : List ℚ) : ℕ := 2 * periods.length + 1

/-- Symbolic design-matrix column: a cosine at a frequency, the constant
column of ones, or a sine at a frequency. -/
inductive DesignCol where
  | cosF (f : ℚ)
  | one
  | sinF (f : ℚ)
deriving DecidableEq

/-- Columns of the `sinfit` design matrix, in source order:
`[cos(2π f t) for f in reversed(freqs)] + [ones] + [sin(2π f t) for f in freqs]`. -/
def sinfitCols (periods : List ℚ) : List DesignCol :=
  ((sinfitFreqs periods).reverse.map DesignCol.cosF) ++ [DesignCol.one] ++
    ((sinfitFreqs periods).map DesignCol.sinF)

/-- Value of one design-matrix column at sample coordinate `t`. -/
noncomputable def colEval (t : ℝ) : DesignCol → ℝ
  | DesignCol.cosF f => Real.cos (2 * Real.pi * (f : ℝ) * t)
  | DesignCol.one => 1
  | DesignCol.sinF f => Real.sin (2 * Real.pi * (f : ℝ) * t)

/-- Row of the evaluated design matrix at sample coordinate `t`. -/
noncomputable def designRow (periods : List ℚ) (t : ℝ) : List ℝ :=
  (sinfitCols periods).map (colEval t)

/-- Dot product of a matrix row with the coefficient vector. -/
def dotL (r cs : List ℝ) : ℝ := (List.zipWith (fun a b => a * b) r cs).sum

/-- Sine-side coefficients: `b = c[0:n//2][::-1]`. -/
def sinfitB (cs : List ℝ) (n : ℕ) : List ℝ := (cs.take (n / 2)).reverse

/-- Cosine-side coefficients: `a = c[n//2 + 1:]`. -/
def sinfitA (cs : List ℝ) (n : ℕ) : List ℝ := cs.drop (n / 2 + 1)

/-- Constant term: `offset = c[n//2]`. -/
def sinfitOffset (cs : List ℝ) (n : ℕ) : ℝ := cs.getD (n / 2) 0

/-- Embedding of `np.arctan2 (y, x)` as the argument of `x + i y`. -/
noncomputable def atan2 (y x : ℝ) : ℝ := Complex.arg ⟨x, y⟩

/-- Per-mode amplitude and phase:
`amplitude = sqrt(a² + b²)`, `phase = arctan2(b, a) * 180 / π`. -/
noncomputable def ampPhase (a b : ℝ) : ℝ × ℝ :=
  (Real.sqrt (a ^ 2 + b ^ 2), atan2 b a * 180 / Real.pi)

/-- Modes dataset assembled by `sinfit`: the `periods` coordinate is the
sorted period list, zipped with the amplitude/phase derived from the paired
`a`/`b` coefficients. -/
noncomputable def sinfitModes (periods : List ℚ) (cs : List ℝ) :
    List (ℚ × ℝ × ℝ) :=
  (sortDesc periods).zip
    (((sinfitA cs (sinfitN periods)).zip (sinfitB cs (sinfitN periods))).map
      (fun ab => ampPhase ab.1 ab.2))

/-- Embedding of `sinval` at one evaluation coordinate: start from the
offset and add `amplitude * sin(2π t / period + phase * π/180)` per mode in
order. -/
noncomputable def sinval (offset : ℝ) (modes : List (ℚ × ℝ × ℝ)) (t : ℝ) : ℝ :=
  offset + (modes.map (fun m =>
    m.2.1 * Real.sin (2 * Real.pi * t / (m.1 : ℝ) + m.2.2 * Real.pi / 180))).sum

/-- Sum of squared residuals of the stacked least-squares system over the
sample list (pairs of coordinate and data value). -/
noncomputable def lstsqResidual (periods : List ℚ) (samples : List (ℝ × ℝ))
    (cs : List ℝ) : ℝ :=
  (samples.map (fun s => (dotL (designRow periods s.1) cs - s.2) ^ 2)).sum

/-- Contract of the external batched solver: a coefficient vector of the
right length minimizing the residual over all vectors of that length. -/
def IsLstsqSol (periods : List ℚ) (samples : List (ℝ × ℝ))
    (cs : List ℝ) : Prop :=
  cs.length = sinfitN periods ∧
    ∀ cs2, cs2.length = sinfitN periods →
      lstsqResidual periods samples cs ≤ lstsqResidual periods samples cs2
/-- Coordinate attached by `_fft` on a complex-FFT pass over dimension `di`. -/
def cfftCoord (arr : InArray) (nfft : String → ℕ) (dxOpt : String → Option ℚ)
    (shift : Bool) (di : String) : List ℚ :=
  if shift then npFftshift (fftfreq (nfft di) (dxRes arr dxOpt di))
  else fftfreq (nfft di) (dxRes arr dxOpt di)
/-- Dimension an `FftOp` acts on. -/
def opDim : FftOp → String
  | FftOp.rfft d => d
  | FftOp.cfft d => d
  | FftOp.shiftData d => d
/-- Transform trace `_fft` emits for a requested dimension list, given the
incoming `first` flag (specification function used to characterize the fold). -/
def opsTrace (arr : InArray) (shift : Bool) : List String → Bool → List FftOp
  | [], _ => []
  | di :: rest, first =>
    if di ∈ arr.dims then
      (if first && !arr.isComplex then [FftOp.rfft di]
       else FftOp.cfft di :: (if shift then [FftOp.shiftData di] else [])) ++
        opsTrace arr shift rest false
    else opsTrace arr shift rest first
/-- Warn-independent part of the loop state: coordinates, trace, `first` flag. -/
def FftState.core (st : FftState) :
    (String → Option (List ℚ)) × List FftOp × Bool :=
  (st.coords, st.ops, st.first)
/-- Value `np.diff(coord)[0]` computes when it succeeds: the gap between the
first two frequency bins (`0` as a junk value otherwise). -/
def binGap : Option (List ℚ) → ℚ
  | some (a :: b :: _) => b - a
  | _ => 0

/-- The list has the same gap `g` between every pair of consecutive entries. -/
def UniformGap (v : List ℚ) (g : ℚ) : Prop :=
  ∀ (j : ℕ) (a b : ℚ), v[j]? = some a → v[j + 1]? = some b → b - a = g
/-- Concrete test array: real values on a single dimension `t` of length 8
with coordinate `[0, 1, ..., 7]` (the scenario input of the spec). -/
def arrT : InArray :=
  { dims := ["t"], length := fun _ => 8,
    coord := fun _ => [0, 1, 2, 3, 4, 5, 6, 7],
    isComplex := false, name := none }
/-- One summand of a modal sum at frequency `x.1` with sine coefficient
`x.2.1` and cosine coefficient `x.2.2`. -/
noncomputable def modeTerm (t : ℝ) (x : ℚ × ℝ × ℝ) : ℝ :=
  x.2.1 * Real.sin (2 * Real.pi * (x.1 : ℝ) * t) +
    x.2.2 * Real.cos (2 * Real.pi * (x.1 : ℝ) * t)

/-! ### basic facts about the frequency grids and the fft-shift rotation -/

theorem length_fftfreq (n : ℕ) (d : ℚ) : (fftfreq n d).length = n := by
  simp [fftfreq]

theorem length_rfftfreq (n : ℕ) (d : ℚ) : (rfftfreq n d).length = n / 2 + 1 := by
  rw [rfftfreq, List.length_map, List.length_range]

theorem getElem?_fftfreq {i n : ℕ} (d : ℚ) (h : i < n) :
    (fftfreq n d)[i]? = some (fftfreqVal n d i) := by
  simp [fftfreq, List.getElem?_map, List.getElem?_range h]

theorem getElem?_rfftfreq {i n : ℕ} (d : ℚ) (h : i < n / 2 + 1) :
    (rfftfreq n d)[i]? = some ((i : ℚ) / (d * n)) := by
  rw [rfftfreq, List.getElem?_map, List.getElem?_range h, Option.map_some']

theorem npFftshift_getElem? {α : Type} (l : List α) {i : ℕ} (hi : i < l.length) :
    (npFftshift l)[i]? = l[(i + (l.length + 1) / 2) % l.length]? := by
  set n := l.length with hn
  have hp2 : n - n / 2 = (n + 1) / 2 := by omega
  have hld : (l.drop (n - n / 2)).length = n / 2 := by
    simp [List.length_drop]; omega
  by_cases hcase : i < n / 2
  · have h1 : (npFftshift l)[i]? = l[(n - n / 2) + i]? := by
      rw [npFftshift, List.getElem?_append, if_pos (by rw [hld]; exact hcase),
        List.getElem?_drop]
    have hidx : (i + (n + 1) / 2) % n = (n - n / 2) + i := by
      rw [Nat.mod_eq_of_lt (by omega)]; omega
    rw [h1, hidx]
  · have h1 : (npFftshift l)[i]? = l[i - n / 2]? := by
      rw [npFftshift, List.getElem?_append_right (by rw [hld]; omega), hld,
        List.getElem?_take, if_pos (by omega)]
    have hidx : (i + (n + 1) / 2) % n = i - n / 2 := by
      have h2 : n ≤ i + (n + 1) / 2 := by omega
      rw [Nat.mod_eq_sub_mod h2, Nat.mod_eq_of_lt (by omega)]
      omega
    rw [h1, hidx]

theorem takeIdx_range' {α : Type} (l : List α) :
    ∀ (len s : ℕ), s + len ≤ l.length →
      takeIdx l (List.range' s len) = (l.drop s).take len := by
  intro len
  induction len with
  | zero => intro s _; simp [takeIdx]
  | succ m ih =>
    intro s hs
    have hsl : s < l.length := by omega
    rw [List.range'_succ, takeIdx, List.filterMap_cons,
      List.getElem?_eq_getElem hsl, List.drop_eq_getElem_cons hsl]
    simp only [List.take_succ_cons]
    have := ih (s + 1) (by omega)
    rw [← this]; rfl

theorem takeIdx_range {α : Type} (l : List α) (k : ℕ) (hk : k ≤ l.length) :
    takeIdx l (List.range k) = l.take k := by
  rw [List.range_eq_range', takeIdx_range' l k 0 (by omega)]
  simp

theorem takeIdx_fftshiftIndices {α : Type} (l : List α) :
    takeIdx l (fftshiftIndices l.length) = npFftshift l := by
  set n := l.length with hn
  have hp2 : n - n / 2 = (n + 1) / 2 := by omega
  have h1 : takeIdx l (List.range' ((n + 1) / 2) (n - (n + 1) / 2)) =
      (l.drop ((n + 1) / 2)).take (n - (n + 1) / 2) :=
    takeIdx_range' l (n - (n + 1) / 2) ((n + 1) / 2) (by omega)
  have h2 : (l.drop ((n + 1) / 2)).take (n - (n + 1) / 2) = l.drop ((n + 1) / 2) := by
    apply List.take_of_length_le
    simp [List.length_drop]
  rw [fftshiftIndices, takeIdx, List.filterMap_append, ← takeIdx, ← takeIdx, h1, h2,
    takeIdx_range l ((n + 1) / 2) (by omega), npFftshift, ← hn, hp2]

/-! ### characterization of the `_fft` transform loop -/

theorem fkey_inj {a b : String} (h : "f_" ++ a = "f_" ++ b) : a = b := by
  have h2 := congrArg String.data h
  simp [String.data_append] at h2
  exact String.ext h2


section FoldLemmas

variable (arr : InArray) (nfft : String → ℕ) (dxOpt : String → Option ℚ) (shift : Bool)

theorem fftStep_missing {di : String} (st : FftState) (h : di ∉ arr.dims) :
    fftStep arr nfft dxOpt shift st di = { st with warns := st.warns ++ [warnMsg di] } := by
  simp [fftStep, h]

theorem fftStep_first_real {di : String} (st : FftState) (hd : di ∈ arr.dims)
    (hf : st.first = true) (hr : arr.isComplex = false) :
    fftStep arr nfft dxOpt shift st di =
      { st with
        coords := fun k =>
          if k = "f_" ++ di then some (rfftfreq (nfft di) (dxRes arr dxOpt di))
          else st.coords k,
        ops := st.ops ++ [FftOp.rfft di],
        first := false } := by
  simp [fftStep, hd, hf, hr]

theorem fftStep_cfft {di : String} (st : FftState) (hd : di ∈ arr.dims)
    (hb : (st.first && !arr.isComplex) = false) :
    fftStep arr nfft dxOpt shift st di =
      { st with
        coords := fun k =>
          if k = "f_" ++ di then some (cfftCoord arr nfft dxOpt shift di)
          else st.coords k,
        ops := st.ops ++ [FftOp.cfft di] ++
          (if shift then [FftOp.shiftData di] else []),
        first := false } := by
  simp [fftStep, hd, hb, cfftCoord]

theorem fftStep_first_false {di : String} (st : FftState) (hf : st.first = false) :
    (fftStep arr nfft dxOpt shift st di).first = false := by
  by_cases hd : di ∈ arr.dims
  · rw [fftStep_cfft arr nfft dxOpt shift st hd (by rw [hf]; rfl)]
  · rw [fftStep_missing arr nfft dxOpt shift st hd]; exact hf

theorem fold_first_false {l : List String} {st : FftState} (hf : st.first = false) :
    (l.foldl (fftStep arr nfft dxOpt shift) st).first = false := by
  induction l generalizing st with
  | nil => exact hf
  | cons di rest ih =>
    rw [List.foldl_cons]
    exact ih (fftStep_first_false arr nfft dxOpt shift _ hf)

theorem fold_coords_stable {l : List String} {st : FftState} {k : String}
    (h : ∀ di ∈ l, "f_" ++ di ≠ k) :
    (l.foldl (fftStep arr nfft dxOpt shift) st).coords k = st.coords k := by
  induction l generalizing st with
  | nil => rfl
  | cons di rest ih =>
    rw [List.foldl_cons]
    have hne : "f_" ++ di ≠ k := h di (List.mem_cons_self di rest)
    have hstep : (fftStep arr nfft dxOpt shift st di).coords k = st.coords k := by
      by_cases hd : di ∈ arr.dims
      · by_cases hb : (st.first && !arr.isComplex) = true
        · have hf : st.first = true := by
            cases h1 : st.first
            · rw [h1] at hb; simp at hb
            · rfl
          have hr : arr.isComplex = false := by
            cases h2 : arr.isComplex
            · rfl
            · rw [h2] at hb; simp at hb
          rw [fftStep_first_real arr nfft dxOpt shift st hd hf hr]
          simp only []
          rw [if_neg (fun hc => hne hc.symm)]
        · rw [fftStep_cfft arr nfft dxOpt shift st hd (by simpa using hb)]
          simp only []
          rw [if_neg (fun hc => hne hc.symm)]
      · rw [fftStep_missing arr nfft dxOpt shift st hd]
    rw [← hstep]
    exact ih (fun x hx => h x (List.mem_cons_of_mem di hx))

theorem fold_coords_cfft {d : String} (hd : d ∈ arr.dims) :
    ∀ (l : List String) (st : FftState), (st.first && !arr.isComplex) = false →
      d ∈ l →
      (l.foldl (fftStep arr nfft dxOpt shift) st).coords ("f_" ++ d) =
        some (cfftCoord arr nfft dxOpt shift d) := by
  intro l
  induction l with
  | nil => intro st _ hmem; exact absurd hmem (List.not_mem_nil d)
  | cons di rest ih =>
    intro st hb hmem
    rw [List.foldl_cons]
    by_cases hdi : di = d
    · subst hdi
      rw [fftStep_cfft arr nfft dxOpt shift st hd hb]
      by_cases hrest : di ∈ rest
      · exact ih _ (by simp) hrest
      · rw [fold_coords_stable arr nfft dxOpt shift
          (fun x hx hc => hrest (by have hxd := fkey_inj hc; exact hxd ▸ hx))]
        simp
    · have hmem' : d ∈ rest := by
        cases List.mem_cons.mp hmem with
        | inl h => exact absurd h.symm hdi
        | inr h => exact h
      by_cases hdd : di ∈ arr.dims
      · rw [fftStep_cfft arr nfft dxOpt shift st hdd hb]
        exact ih _ (by simp) hmem'
      · rw [fftStep_missing arr nfft dxOpt shift st hdd]
        exact ih _ hb hmem'

theorem fold_coords_head {d : String} {rest : List String} {st : FftState}
    (hd : d ∈ arr.dims) (hf : st.first = true) (hr : arr.isComplex = false)
    (hrest : d ∉ rest) :
    ((d :: rest).foldl (fftStep arr nfft dxOpt shift) st).coords ("f_" ++ d) =
      some (rfftfreq (nfft d) (dxRes arr dxOpt d)) := by
  rw [List.foldl_cons, fftStep_first_real arr nfft dxOpt shift st hd hf hr,
    fold_coords_stable arr nfft dxOpt shift
      (fun x hx hc => hrest (by rw [← fkey_inj hc]; exact hx))]
  simp

end FoldLemmas


section FoldLemmas2

variable (arr : InArray) (nfft : String → ℕ) (dxOpt : String → Option ℚ) (shift : Bool)

theorem fold_ops : ∀ (l : List String) (st : FftState),
    (l.foldl (fftStep arr nfft dxOpt shift) st).ops =
      st.ops ++ opsTrace arr shift l st.first := by
  intro l
  induction l with
  | nil => intro st; simp [opsTrace]
  | cons di rest ih =>
    intro st
    rw [List.foldl_cons, opsTrace]
    by_cases hd : di ∈ arr.dims
    · rw [if_pos hd]
      by_cases hb : (st.first && !arr.isComplex) = true
      · have hf : st.first = true := by
          cases h1 : st.first
          · rw [h1] at hb; simp at hb
          · rfl
        have hr : arr.isComplex = false := by
          cases h2 : arr.isComplex
          · rfl
          · rw [h2] at hb; simp at hb
        rw [fftStep_first_real arr nfft dxOpt shift st hd hf hr, ih, hb]
        simp
      · have hb' : (st.first && !arr.isComplex) = false := by simpa using hb
        rw [fftStep_cfft arr nfft dxOpt shift st hd hb', ih, hb']
        simp
    · rw [if_neg hd, fftStep_missing arr nfft dxOpt shift st hd, ih]

theorem fold_warns : ∀ (l : List String) (st : FftState),
    (l.foldl (fftStep arr nfft dxOpt shift) st).warns =
      st.warns ++ (l.filter (fun di => di ∉ arr.dims)).map warnMsg := by
  intro l
  induction l with
  | nil => intro st; simp
  | cons di rest ih =>
    intro st
    rw [List.foldl_cons]
    by_cases hd : di ∈ arr.dims
    · have hstep : (fftStep arr nfft dxOpt shift st di).warns = st.warns := by
        by_cases hb : (st.first && !arr.isComplex) = true
        · have hf : st.first = true := by
            cases h1 : st.first
            · rw [h1] at hb; simp at hb
            · rfl
          have hr : arr.isComplex = false := by
            cases h2 : arr.isComplex
            · rfl
            · rw [h2] at hb; simp at hb
          rw [fftStep_first_real arr nfft dxOpt shift st hd hf hr]
        · rw [fftStep_cfft arr nfft dxOpt shift st hd (by simpa using hb)]
      rw [ih, hstep, List.filter_cons, if_neg (by simpa using hd)]
    · rw [fftStep_missing arr nfft dxOpt shift st hd, ih, List.filter_cons,
        if_pos (by simpa using hd)]
      simp


theorem fftStep_core_congr {st st' : FftState} (h : st.core = st'.core)
    (di : String) :
    (fftStep arr nfft dxOpt shift st di).core =
      (fftStep arr nfft dxOpt shift st' di).core := by
  have h1 : st.coords = st'.coords := congrArg Prod.fst h
  have h2 : st.ops = st'.ops := congrArg Prod.fst (congrArg Prod.snd h)
  have h3 : st.first = st'.first := congrArg Prod.snd (congrArg Prod.snd h)
  by_cases hd : di ∈ arr.dims
  · by_cases hb : (st.first && !arr.isComplex) = true
    · have hf : st.first = true := by
        cases hc : st.first
        · rw [hc] at hb; simp at hb
        · rfl
      have hr : arr.isComplex = false := by
        cases hc : arr.isComplex
        · rfl
        · rw [hc] at hb; simp at hb
      rw [fftStep_first_real arr nfft dxOpt shift st hd hf hr,
        fftStep_first_real arr nfft dxOpt shift st' hd (h3 ▸ hf) hr,
        FftState.core, FftState.core]
      simp [h1, h2]
    · have hb' : (st.first && !arr.isComplex) = false := by simpa using hb
      rw [fftStep_cfft arr nfft dxOpt shift st hd hb',
        fftStep_cfft arr nfft dxOpt shift st' hd (h3 ▸ hb'),
        FftState.core, FftState.core]
      simp [h1, h2]
  · rw [fftStep_missing arr nfft dxOpt shift st hd,
      fftStep_missing arr nfft dxOpt shift st' hd]
    exact h

theorem fold_core_congr : ∀ (l : List String) {st st' : FftState},
    st.core = st'.core →
    (l.foldl (fftStep arr nfft dxOpt shift) st).core =
      (l.foldl (fftStep arr nfft dxOpt shift) st').core := by
  intro l
  induction l with
  | nil => intro st st' h; exact h
  | cons di rest ih =>
    intro st st' h
    rw [List.foldl_cons, List.foldl_cons]
    exact ih (fftStep_core_congr arr nfft dxOpt shift h di)

/-- The transform part of the `_fft` loop over a dimension list equals the
loop over just the present dimensions: absent dimensions only add warnings. -/
theorem fold_core_filter : ∀ (l : List String) (st : FftState),
    (l.foldl (fftStep arr nfft dxOpt shift) st).core =
      ((l.filter (fun di => di ∈ arr.dims)).foldl
        (fftStep arr nfft dxOpt shift) st).core := by
  intro l
  induction l with
  | nil => intro st; rfl
  | cons di rest ih =>
    intro st
    rw [List.foldl_cons, List.filter_cons]
    by_cases hd : di ∈ arr.dims
    · rw [if_pos (by simpa using hd), List.foldl_cons]
      exact ih _
    · rw [if_neg (by simpa using hd),
        fftStep_missing arr nfft dxOpt shift st hd]
      calc (rest.foldl (fftStep arr nfft dxOpt shift)
              { st with warns := st.warns ++ [warnMsg di] }).core
          = (rest.foldl (fftStep arr nfft dxOpt shift) st).core :=
            fold_core_congr arr nfft dxOpt shift rest rfl
        _ = ((rest.filter (fun x => x ∈ arr.dims)).foldl
              (fftStep arr nfft dxOpt shift) st).core := ih st

end FoldLemmas2


section OpsTraceLemmas

variable (arr : InArray) (shift : Bool)

theorem opsTrace_mem_dim : ∀ (l : List String) (first : Bool) (x : FftOp),
    x ∈ opsTrace arr shift l first → opDim x ∈ l := by
  intro l
  induction l with
  | nil => intro first x h; simp [opsTrace] at h
  | cons di rest ih =>
    intro first x h
    rw [opsTrace] at h
    by_cases hd : di ∈ arr.dims
    · rw [if_pos hd] at h
      rcases List.mem_append.mp h with h1 | h2
      · have hx : opDim x = di := by
          by_cases hb : (first && !arr.isComplex) = true
          · rw [if_pos hb] at h1
            simp at h1
            rw [h1, opDim]
          · rw [if_neg hb] at h1
            rcases List.mem_cons.mp h1 with h3 | h4
            · rw [h3, opDim]
            · cases hs : shift
              · rw [hs] at h4; simp at h4
              · rw [hs] at h4
                simp at h4
                rw [h4, opDim]
        rw [hx]; exact List.mem_cons_self di rest
      · exact List.mem_cons_of_mem di (ih false x h2)
    · rw [if_neg hd] at h
      exact List.mem_cons_of_mem di (ih first x h)

theorem opsTrace_false_no_rfft : ∀ (l : List String) (x : String),
    FftOp.rfft x ∉ opsTrace arr shift l false := by
  intro l
  induction l with
  | nil => intro x h; simp [opsTrace] at h
  | cons di rest ih =>
    intro x h
    rw [opsTrace] at h
    by_cases hd : di ∈ arr.dims
    · rw [if_pos hd, Bool.false_and, if_neg (by simp)] at h
      rcases List.mem_append.mp h with h1 | h2
      · rcases List.mem_cons.mp h1 with h3 | h4
        · exact FftOp.noConfusion h3
        · cases hs : shift
          · rw [hs] at h4; simp at h4
          · rw [hs] at h4; simp at h4
      · exact ih x h2
    · rw [if_neg hd] at h
      exact ih x h

theorem opsTrace_cfft_mem : ∀ (l : List String) (di : String), di ∈ l →
    di ∈ arr.dims → FftOp.cfft di ∈ opsTrace arr shift l false := by
  intro l
  induction l with
  | nil => intro di h; simp at h
  | cons dj rest ih =>
    intro di hmem hdi
    rw [opsTrace]
    by_cases hd : dj ∈ arr.dims
    · rw [if_pos hd, Bool.false_and, if_neg (by simp)]
      rcases List.mem_cons.mp hmem with h1 | h2
      · subst h1
        exact List.mem_append.mpr (Or.inl (List.mem_cons_self _ _))
      · exact List.mem_append.mpr (Or.inr (ih di h2 hdi))
    · rw [if_neg hd]
      rcases List.mem_cons.mp hmem with h1 | h2
      · subst h1; exact absurd hdi hd
      · exact ih di h2 hdi

theorem opsTrace_shiftData_mem : ∀ (l : List String) (di : String), di ∈ l →
    di ∈ arr.dims → FftOp.shiftData di ∈ opsTrace arr true l false := by
  intro l
  induction l with
  | nil => intro di h; simp at h
  | cons dj rest ih =>
    intro di hmem hdi
    rw [opsTrace]
    by_cases hd : dj ∈ arr.dims
    · rw [if_pos hd, Bool.false_and, if_neg (by simp), if_pos rfl]
      rcases List.mem_cons.mp hmem with h1 | h2
      · subst h1
        exact List.mem_append.mpr (Or.inl (by simp))
      · exact List.mem_append.mpr (Or.inr (ih di h2 hdi))
    · rw [if_neg hd]
      rcases List.mem_cons.mp hmem with h1 | h2
      · subst h1; exact absurd hdi hd
      · exact ih di h2 hdi

end OpsTraceLemmas

/-! ### claim C5: the fft-shift rotation on complex-FFT dimensions -/

/-- **C5.** On a complex-FFT dimension of length `n` transformed with
`shift=true`, the frequency coordinate (`np.fft.fftshift`) and the data axis
(`da.take` over the `_fftshift` index list) are rotated by the same circular
permutation sending output index `i` to input index `(i + ⌈n/2⌉) % n`, i.e.
into the order `[⌈n/2⌉, …, n-1, 0, …, ⌈n/2⌉-1]`; for an even-length axis the
zero frequency lands at index `n/2` of the shifted coordinate.  The last two
conjuncts show the `_fft` loop body indeed applies this shift to both the
coordinate and the data on a complex-FFT pass. -/
theorem complex_dim_shift_rotation (n : ℕ) (hn : 0 < n) (l : List ℚ)
    (hl : l.length = n) (d : ℚ) (arr : InArray) (nfft : String → ℕ)
    (dxOpt : String → Option ℚ) (st : FftState) (di : String)
    (hc : arr.isComplex = true) (hd : di ∈ arr.dims) :
    npFftshift l = takeIdx l (fftshiftIndices n)
    ∧ (∀ i, i < n → (npFftshift l)[i]? = l[(i + (n + 1) / 2) % n]?)
    ∧ (n % 2 = 0 → (npFftshift (fftfreq n d))[n / 2]? = some 0)
    ∧ (fftStep arr nfft dxOpt true st di).coords ("f_" ++ di) =
        some (npFftshift (fftfreq (nfft di) (dxRes arr dxOpt di)))
    ∧ (fftStep arr nfft dxOpt true st di).ops =
        st.ops ++ [FftOp.cfft di, FftOp.shiftData di] := by
  have hb : (st.first && !arr.isComplex) = false := by rw [hc]; simp
  refine ⟨?_, ?_, ?_, ?_, ?_⟩
  · rw [← hl]; exact (takeIdx_fftshiftIndices l).symm
  · intro i hi
    have h := npFftshift_getElem? l (show i < l.length by rw [hl]; exact hi)
    rw [hl] at h
    exact h
  · intro he
    have hlen := length_fftfreq n d
    have h := npFftshift_getElem? (fftfreq n d)
      (show n / 2 < (fftfreq n d).length by rw [hlen]; omega)
    rw [hlen] at h
    have hidx : (n / 2 + (n + 1) / 2) % n = 0 := by
      have hsum : n / 2 + (n + 1) / 2 = n := by omega
      rw [hsum, Nat.mod_self]
    rw [h, hidx, getElem?_fftfreq d hn, fftfreqVal, if_pos (by omega)]
    norm_num
  · rw [fftStep_cfft arr nfft dxOpt true st hd hb]
    simp [cfftCoord]
  · rw [fftStep_cfft arr nfft dxOpt true st hd hb]
    simp

/-- Witness for C5 at `n = 8`, `dx = 1`: the shifted coordinate equals the
data rotation, zero frequency sits at index `4`, and the shifted coordinate
list is `[-1/2, -3/8, -1/4, -1/8, 0, 1/8, 1/4, 3/8]`. -/
theorem complex_dim_shift_rotation_witness :
    npFftshift (fftfreq 8 1) = takeIdx (fftfreq 8 1) (fftshiftIndices 8)
    ∧ (npFftshift (fftfreq 8 1))[8 / 2]? = some 0
    ∧ npFftshift (fftfreq 8 1) = [-1/2, -3/8, -1/4, -1/8, 0, 1/8, 1/4, 3/8] := by
  have h := complex_dim_shift_rotation 8 (by norm_num) (fftfreq 8 1)
    (length_fftfreq 8 1) 1
    { dims := ["t"], length := fun _ => 8, coord := fun _ => [],
      isComplex := true, name := none }
    (fun _ => 8) (fun _ => some 1)
    { coords := fun _ => none, ops := [], warns := [], first := true }
    "t" rfl (by simp)
  refine ⟨h.1, h.2.2.1 (by norm_num), ?_⟩
  norm_num [npFftshift, fftfreq, fftfreqVal, List.range_succ]

/-! ### claims C1 and C10: real-input strategy of the transform loop -/


/-- **C1.** For a real-valued input transformed over an ordered dimension
list `d :: rest` (all present, no duplicates), `_fft` uses the real-input
FFT on `d` only: the `f_d` coordinate is `rfftfreq(nfft[d], dx[d])` with
`nfft//2 + 1` non-negative entries and an `rfft` trace entry, while every
subsequent dimension gets the complex `fft` with the full `fftfreq`
coordinate (shifted when requested) and never an `rfft` entry. -/
theorem real_input_first_dim_rfft (arr : InArray) (nfft : String → ℕ)
    (dxOpt : String → Option ℚ) (shift : Bool) (d : String) (rest : List String)
    (hr : arr.isComplex = false)
    (hpres : ∀ di ∈ d :: rest, di ∈ arr.dims)
    (hnd : (d :: rest).Nodup)
    (hdx : 0 ≤ dxRes arr dxOpt d) :
    (fftRaw arr nfft dxOpt (d :: rest) shift).coords ("f_" ++ d) =
      some (rfftfreq (nfft d) (dxRes arr dxOpt d))
    ∧ (rfftfreq (nfft d) (dxRes arr dxOpt d)).length = nfft d / 2 + 1
    ∧ (∀ x ∈ rfftfreq (nfft d) (dxRes arr dxOpt d), 0 ≤ x)
    ∧ FftOp.rfft d ∈ (fftRaw arr nfft dxOpt (d :: rest) shift).ops
    ∧ (∀ di ∈ rest,
        (fftRaw arr nfft dxOpt (d :: rest) shift).coords ("f_" ++ di) =
          some (cfftCoord arr nfft dxOpt shift di)
        ∧ FftOp.cfft di ∈ (fftRaw arr nfft dxOpt (d :: rest) shift).ops
        ∧ FftOp.rfft di ∉ (fftRaw arr nfft dxOpt (d :: rest) shift).ops) := by
  have hd : d ∈ arr.dims := hpres d (List.mem_cons_self d rest)
  have hdrest : d ∉ rest := (List.nodup_cons.mp hnd).1
  have hops : (fftRaw arr nfft dxOpt (d :: rest) shift).ops =
      [FftOp.rfft d] ++ opsTrace arr shift rest false := by
    rw [fftRaw, fold_ops arr nfft dxOpt shift, opsTrace, if_pos hd]
    simp [hr]
  refine ⟨?_, length_rfftfreq _ _, ?_, ?_, ?_⟩
  · exact fold_coords_head arr nfft dxOpt shift hd rfl hr hdrest
  · intro x hx
    rw [rfftfreq] at hx
    rcases List.mem_map.mp hx with ⟨i, -, rfl⟩
    exact div_nonneg (Nat.cast_nonneg i)
      (mul_nonneg hdx (Nat.cast_nonneg (nfft d)))
  · rw [hops]
    exact List.mem_append.mpr (Or.inl (List.mem_cons_self _ _))
  · intro di hdi
    have hdid : di ∈ arr.dims := hpres di (List.mem_cons_of_mem d hdi)
    refine ⟨?_, ?_, ?_⟩
    · rw [fftRaw, List.foldl_cons,
        fftStep_first_real arr nfft dxOpt shift _ hd rfl hr]
      exact fold_coords_cfft arr nfft dxOpt shift hdid rest _ (by simp) hdi
    · rw [hops]
      exact List.mem_append.mpr
        (Or.inr (opsTrace_cfft_mem arr shift rest di hdi hdid))
    · rw [hops]
      intro hmem
      rcases List.mem_append.mp hmem with h1 | h2
      · have : FftOp.rfft di = FftOp.rfft d := by simpa using h1
        have hdd : di = d := by injection this
        exact hdrest (hdd ▸ hdi)
      · exact opsTrace_false_no_rfft arr shift rest di h2

/-- Witness for C1: the spec scenario.  Real input of length 8 along `t`,
`dx = 1`, `nfft` defaulting to the length 8: the `f_t` coordinate stored by
the transform loop is `rfftfreq 8 1 = [0, 1/8, 1/4, 3/8, 1/2]`, of length
`8//2 + 1 = 5`. -/
theorem real_input_first_dim_rfft_witness :
    ((fun di => ((fun _ => (none : Option ℕ)) di).getD (arrT.length di)) "t" = 8)
    ∧ (fftRaw arrT (fun di => ((fun _ => (none : Option ℕ)) di).getD (arrT.length di))
        (fun _ => some 1) ["t"] false).coords ("f_" ++ "t") = some (rfftfreq 8 1)
    ∧ rfftfreq 8 1 = [0, 1/8, 1/4, 3/8, 1/2]
    ∧ (rfftfreq 8 1).length = 5 := by
  have h := real_input_first_dim_rfft arrT
    (fun di => ((fun _ => (none : Option ℕ)) di).getD (arrT.length di))
    (fun _ => some 1) false "t" [] rfl
    (by intro di hdi; simpa [arrT] using hdi)
    (by simp)
    (by norm_num [dxRes, arrT])
  exact ⟨rfl, h.1, by norm_num [rfftfreq, List.range_succ], by norm_num [rfftfreq]⟩

/-- **C10.** For a real-valued input, `shift=true` never touches the first
transformed dimension: its coordinate is the unshifted non-negative
ascending `rfftfreq` grid, identical to the `shift=false` run, and no
`_fftshift` is applied to its data axis — while with `shift=true` every
data axis of every subsequent dimension is rotated.  Consequently, over a single
transformed dimension the whole `fft` result is independent of `shift`. -/
theorem real_input_shift_skips_first_dim (arr : InArray) (nfft : String → ℕ)
    (dxOpt : String → Option ℚ) (d : String) (rest : List String)
    (hr : arr.isComplex = false)
    (hpres : ∀ di ∈ d :: rest, di ∈ arr.dims)
    (hnd : (d :: rest).Nodup)
    (hdx : 0 ≤ dxRes arr dxOpt d) :
    (fftRaw arr nfft dxOpt (d :: rest) true).coords ("f_" ++ d) =
      (fftRaw arr nfft dxOpt (d :: rest) false).coords ("f_" ++ d)
    ∧ (fftRaw arr nfft dxOpt (d :: rest) true).coords ("f_" ++ d) =
        some (rfftfreq (nfft d) (dxRes arr dxOpt d))
    ∧ List.Sorted (· ≤ ·) (rfftfreq (nfft d) (dxRes arr dxOpt d))
    ∧ (∀ x ∈ rfftfreq (nfft d) (dxRes arr dxOpt d), 0 ≤ x)
    ∧ FftOp.shiftData d ∉ (fftRaw arr nfft dxOpt (d :: rest) true).ops
    ∧ (∀ di ∈ rest, FftOp.shiftData di ∈ (fftRaw arr nfft dxOpt (d :: rest) true).ops)
    ∧ (rest = [] → ∀ (nfftOpt : String → Option ℕ) (detrend : Option String)
        (tapering : Bool),
        fft arr nfftOpt [d] dxOpt detrend tapering true =
          fft arr nfftOpt [d] dxOpt detrend tapering false) := by
  have hd : d ∈ arr.dims := hpres d (List.mem_cons_self d rest)
  have hdrest : d ∉ rest := (List.nodup_cons.mp hnd).1
  have hco : ∀ sh : Bool, (fftRaw arr nfft dxOpt (d :: rest) sh).coords ("f_" ++ d) =
      some (rfftfreq (nfft d) (dxRes arr dxOpt d)) := fun sh =>
    fold_coords_head arr nfft dxOpt sh hd rfl hr hdrest
  have hops : (fftRaw arr nfft dxOpt (d :: rest) true).ops =
      [FftOp.rfft d] ++ opsTrace arr true rest false := by
    rw [fftRaw, fold_ops arr nfft dxOpt true, opsTrace, if_pos hd]
    simp [hr]
  refine ⟨(hco true).trans (hco false).symm, hco true, ?_, ?_, ?_, ?_, ?_⟩
  · rw [rfftfreq, List.Sorted, List.pairwise_map]
    refine (List.pairwise_lt_range _).imp ?_
    intro i j hij
    rw [div_eq_mul_inv, div_eq_mul_inv]
    exact mul_le_mul_of_nonneg_right (by exact_mod_cast le_of_lt hij)
      (inv_nonneg.mpr (mul_nonneg hdx (Nat.cast_nonneg (nfft d))))
  · intro x hx
    rw [rfftfreq] at hx
    rcases List.mem_map.mp hx with ⟨i, -, rfl⟩
    exact div_nonneg (Nat.cast_nonneg i)
      (mul_nonneg hdx (Nat.cast_nonneg (nfft d)))
  · rw [hops]
    intro hmem
    rcases List.mem_append.mp hmem with h1 | h2
    · simp at h1
    · have := opsTrace_mem_dim arr true rest false _ h2
      rw [opDim] at this
      exact hdrest this
  · intro di hdi
    have hdid : di ∈ arr.dims := hpres di (List.mem_cons_of_mem d hdi)
    rw [hops]
    exact List.mem_append.mpr
      (Or.inr (opsTrace_shiftData_mem arr rest di hdi hdid))
  · intro hrest nfftOpt detrend tapering
    subst hrest
    have hst : ∀ sh : Bool, fftRaw arr
        (fun di => (nfftOpt di).getD (arr.length di)) dxOpt [d] sh =
        { coords := fun k =>
            if k = "f_" ++ d then
              some (rfftfreq ((nfftOpt d).getD (arr.length d)) (dxRes arr dxOpt d))
            else baseCoords arr [d] k,
          ops := [] ++ [FftOp.rfft d], warns := [], first := false } := by
      intro sh
      rw [fftRaw, List.foldl_cons,
        fftStep_first_real arr _ dxOpt sh _ hd rfl hr]
      rfl
    rw [fft, fft, hst true, hst false]

/-- Witness for C10: on the length-8 real scenario array over the single
dimension `t`, the full `fft` call with `shift=true` returns the same result
as with `shift=false`, and the stored coordinate is the unshifted
`rfftfreq 8 1`. -/
theorem real_input_shift_skips_first_dim_witness :
    fft arrT (fun _ => none) ["t"] (fun _ => some 1) none false true =
      fft arrT (fun _ => none) ["t"] (fun _ => some 1) none false false
    ∧ (fftRaw arrT (fun di => ((fun _ => (none : Option ℕ)) di).getD (arrT.length di))
        (fun _ => some 1) ["t"] true).coords ("f_" ++ "t") = some (rfftfreq 8 1) := by
  have h := real_input_shift_skips_first_dim arrT
    (fun di => ((fun _ => (none : Option ℕ)) di).getD (arrT.length di))
    (fun _ => some 1) "t" [] rfl
    (by intro di hdi; simpa [arrT] using hdi)
    (by simp)
    (by norm_num [dxRes, arrT])
  exact ⟨h.2.2.2.2.2.2 rfl (fun _ => none) none false, h.2.1⟩

/-! ### claim C2: the normalization factors -/


theorem length_npFftshift {α : Type} (l : List α) :
    (npFftshift l).length = l.length := by
  rw [npFftshift, List.length_append, List.length_drop, List.length_take]
  omega

theorem length_cfftCoord (arr : InArray) (nfft : String → ℕ)
    (dxOpt : String → Option ℚ) (shift : Bool) (di : String) :
    (cfftCoord arr nfft dxOpt shift di).length = nfft di := by
  rw [cfftCoord]
  cases shift
  · rw [if_neg (by simp), length_fftfreq]
  · rw [if_pos rfl, length_npFftshift, length_fftfreq]

theorem diffHead_eq_binGap {c : List ℚ} (h : 2 ≤ c.length) :
    diffHead c = Except.ok (binGap (some c)) := by
  match c, h with
  | a :: b :: t, _ => rfl

theorem uniformGap_rfftfreq (n : ℕ) (d : ℚ) :
    UniformGap (rfftfreq n d) (1 / (d * n)) := by
  intro j a b ha hb
  have hj1 : j + 1 < (rfftfreq n d).length := by
    by_contra hcon
    rw [List.getElem?_eq_none (le_of_not_lt hcon)] at hb
    exact Option.noConfusion hb
  have hj : j < (rfftfreq n d).length := by omega
  rw [length_rfftfreq] at hj1 hj
  rw [getElem?_rfftfreq d hj] at ha
  rw [getElem?_rfftfreq d hj1] at hb
  have ha' := Option.some.inj ha
  have hb' := Option.some.inj hb
  rw [← ha', ← hb', div_sub_div_same]
  have hnum : (((j + 1 : ℕ)) : ℚ) - (j : ℚ) = 1 := by push_cast; ring
  rw [hnum]

theorem shifted_fftfreq_getElem? (n : ℕ) (d : ℚ) {j : ℕ} (hj : j < n) :
    (npFftshift (fftfreq n d))[j]? =
      some (((j : ℚ) - ((n / 2 : ℕ) : ℚ)) / (d * n)) := by
  have hlen := length_fftfreq n d
  have h := npFftshift_getElem? (fftfreq n d) (by rw [hlen]; exact hj)
  rw [hlen] at h
  rw [h]
  by_cases hc : j < n - (n + 1) / 2
  · have hival : (j + (n + 1) / 2) % n = j + (n + 1) / 2 :=
      Nat.mod_eq_of_lt (by omega)
    have hin : j + (n + 1) / 2 < n := by omega
    rw [hival, getElem?_fftfreq d hin, fftfreqVal, if_neg (by omega)]
    have hnn : (n + 1) / 2 + n / 2 = n := by omega
    have h3 : (((n + 1) / 2 : ℕ) : ℚ) + ((n / 2 : ℕ) : ℚ) = (n : ℚ) := by
      exact_mod_cast hnn
    have hnum : ((j + (n + 1) / 2 : ℕ) : ℚ) - (n : ℚ) =
        (j : ℚ) - ((n / 2 : ℕ) : ℚ) := by
      push_cast
      linarith [h3]
    rw [hnum]
  · have hival : (j + (n + 1) / 2) % n = j - n / 2 := by
      rw [Nat.mod_eq_sub_mod (by omega), Nat.mod_eq_of_lt (by omega)]
      omega
    have hin : j - n / 2 < n := by omega
    rw [hival, getElem?_fftfreq d hin, fftfreqVal, if_pos (by omega)]
    have hle : n / 2 ≤ j := by omega
    have hnum : ((j - n / 2 : ℕ) : ℚ) = (j : ℚ) - ((n / 2 : ℕ) : ℚ) := by
      push_cast [Nat.cast_sub hle]
      ring
    rw [hnum]

theorem uniformGap_shifted_fftfreq (n : ℕ) (d : ℚ) :
    UniformGap (npFftshift (fftfreq n d)) (1 / (d * n)) := by
  intro j a b ha hb
  have hj1 : j + 1 < (npFftshift (fftfreq n d)).length := by
    by_contra hcon
    rw [List.getElem?_eq_none (le_of_not_lt hcon)] at hb
    exact Option.noConfusion hb
  rw [length_npFftshift, length_fftfreq] at hj1
  rw [shifted_fftfreq_getElem? n d (by omega)] at ha
  rw [shifted_fftfreq_getElem? n d hj1] at hb
  rw [← Option.some.inj ha, ← Option.some.inj hb, div_sub_div_same]
  have hnum : ((j + 1 : ℕ) : ℚ) - ((n / 2 : ℕ) : ℚ) -
      ((j : ℚ) - ((n / 2 : ℕ) : ℚ)) = 1 := by push_cast; ring
  rw [hnum]

theorem binGap_eq_of_uniform {c : List ℚ} {g : ℚ} (h : 2 ≤ c.length)
    (hu : UniformGap c g) : binGap (some c) = g := by
  match c, h with
  | a :: b :: t, _ =>
    have := hu 0 a b (by simp) (by simp)
    rw [binGap]
    exact this

theorem normStep_some {coords : String → Option (List ℚ)} {nfft : String → ℕ}
    {acc : ℚ × ℚ} {di : String} {c : List ℚ}
    (hc : coords ("f_" ++ di) = some c) (hlen : 2 ≤ c.length) :
    normStep coords nfft acc di =
      Except.ok (acc.1 / (nfft di : ℚ) ^ 2,
        acc.2 / (binGap (some c) * (nfft di : ℚ))) := by
  match c, hlen with
  | a :: b :: t, _ =>
    rw [normStep, hc]
    rfl

theorem computeNormFactor_cons_ok {coords : String → Option (List ℚ)}
    {nfft : String → ℕ} {di : String} {rest : List String} {acc acc' : ℚ × ℚ}
    (h : normStep coords nfft acc di = Except.ok acc') :
    computeNormFactor coords nfft (di :: rest) acc =
      computeNormFactor coords nfft rest acc' := by
  rw [computeNormFactor, h]

theorem computeNormFactor_ok (coords : String → Option (List ℚ))
    (nfft : String → ℕ) :
    ∀ (l : List String) (p q : ℚ),
    (∀ di ∈ l, ∃ c, coords ("f_" ++ di) = some c ∧ 2 ≤ c.length) →
    computeNormFactor coords nfft l (p, q) =
      Except.ok (p * (l.map (fun di => 1 / ((nfft di : ℚ)) ^ 2)).prod,
        q * (l.map (fun di =>
          1 / (binGap (coords ("f_" ++ di)) * (nfft di : ℚ)))).prod) := by
  intro l
  induction l with
  | nil => intro p q _; simp [computeNormFactor]
  | cons di rest ih =>
    intro p q h
    obtain ⟨c, hc, hlen⟩ := h di (List.mem_cons_self di rest)
    rw [computeNormFactor_cons_ok (normStep_some hc hlen),
      ih (p / (nfft di : ℚ) ^ 2) (q / (binGap (some c) * (nfft di : ℚ)))
        (fun x hx => h x (List.mem_cons_of_mem di hx)),
      List.map_cons, List.prod_cons, List.map_cons, List.prod_cons, hc]
    simp only [Except.ok.injEq, Prod.mk.injEq]
    constructor <;> ring

theorem fft_ok_of_norm {arr : InArray} {nfftOpt : String → Option ℕ}
    {dxOpt : String → Option ℚ} {shift : Bool} {detrend : Option String}
    {l : List String} {pq : ℚ × ℚ}
    (hdet : detrend ≠ some "linear")
    (hok : computeNormFactor
        (fftRaw arr (fun di => (nfftOpt di).getD (arr.length di)) dxOpt l shift).coords
        (fun di => (nfftOpt di).getD (arr.length di)) l (1, 1) = Except.ok pq) :
    fft arr nfftOpt l dxOpt detrend false shift = Except.ok
      { coords := (fftRaw arr (fun di => (nfftOpt di).getD (arr.length di))
          dxOpt l shift).coords,
        dims := spectrumDims arr l,
        ops := (fftRaw arr (fun di => (nfftOpt di).getD (arr.length di))
          dxOpt l shift).ops,
        warns := (fftRaw arr (fun di => (nfftOpt di).getD (arr.length di))
          dxOpt l shift).warns,
        psFactor := pq.1, psdFactor := pq.2, resName := "spectrum" } := by
  rw [fft, if_neg hdet]
  simp only [Bool.false_eq_true, if_false]
  rw [hok]

/-- **C2.** Every successful `fft` call carries
`ps_factor = ∏ 1/nfft²` and `psd_factor = ∏ 1/(df·nfft)` over the
transformed dimensions, both accumulated from the default `1.0` (a fresh
spectrum has no prior factor attributes), where `df` is the gap
`np.diff(coord)[0]` between consecutive frequency bins of the
output coordinate of that dimension; for a real input with `shift=true` every output
coordinate is uniformly spaced with exactly that gap. -/
theorem fft_norm_factors (arr : InArray) (nfftOpt : String → Option ℕ)
    (dxOpt : String → Option ℚ) (shift : Bool) (detrend : Option String)
    (l : List String)
    (hdet : detrend ≠ some "linear")
    (hpres : ∀ di ∈ l, di ∈ arr.dims)
    (hnd : l.Nodup)
    (hn2 : ∀ di ∈ l, 2 ≤ (nfftOpt di).getD (arr.length di)) :
    ∃ res, fft arr nfftOpt l dxOpt detrend false shift = Except.ok res
      ∧ res.psFactor =
          (l.map (fun di =>
            1 / (((nfftOpt di).getD (arr.length di) : ℚ)) ^ 2)).prod
      ∧ res.psdFactor =
          (l.map (fun di =>
            1 / (binGap (res.coords ("f_" ++ di)) *
              ((nfftOpt di).getD (arr.length di) : ℚ)))).prod
      ∧ (arr.isComplex = false → shift = true → ∀ di ∈ l, ∃ v,
          res.coords ("f_" ++ di) = some v ∧
            UniformGap v (binGap (some v))) := by
  have hchar : ∀ di ∈ l, ∃ v,
      (fftRaw arr (fun dj => (nfftOpt dj).getD (arr.length dj)) dxOpt l shift).coords
        ("f_" ++ di) = some v
      ∧ 2 ≤ v.length
      ∧ (arr.isComplex = false → shift = true → UniformGap v (binGap (some v))) := by
    intro di hdi
    cases hcx : arr.isComplex
    · match l, hdi, hpres, hnd, hn2 with
      | d :: rest, hdi, hpres, hnd, hn2 =>
        have hd : d ∈ arr.dims := hpres d (List.mem_cons_self d rest)
        have hdrest : d ∉ rest := (List.nodup_cons.mp hnd).1
        rcases List.mem_cons.mp hdi with hhead | htail
        · subst hhead
          refine ⟨rfftfreq ((nfftOpt di).getD (arr.length di)) (dxRes arr dxOpt di),
            fold_coords_head arr _ dxOpt shift hd rfl hcx hdrest, ?_, ?_⟩
          · rw [length_rfftfreq]
            have := hn2 di (List.mem_cons_self di rest)
            omega
          · intro _ _
            have hlen2 : 2 ≤ (rfftfreq ((nfftOpt di).getD (arr.length di))
                (dxRes arr dxOpt di)).length := by
              rw [length_rfftfreq]
              have := hn2 di (List.mem_cons_self di rest)
              omega
            have hu := uniformGap_rfftfreq ((nfftOpt di).getD (arr.length di))
              (dxRes arr dxOpt di)
            rw [binGap_eq_of_uniform hlen2 hu]
            exact hu
        · have hdid : di ∈ arr.dims := hpres di (List.mem_cons_of_mem d htail)
          refine ⟨cfftCoord arr (fun dj => (nfftOpt dj).getD (arr.length dj))
            dxOpt shift di, ?_, ?_, ?_⟩
          · rw [fftRaw, List.foldl_cons,
              fftStep_first_real arr _ dxOpt shift _ hd rfl hcx]
            exact fold_coords_cfft arr _ dxOpt shift hdid rest _ (by simp) htail
          · rw [length_cfftCoord]
            exact hn2 di (List.mem_cons_of_mem d htail)
          · intro _ hsh
            subst hsh
            have hlen2 : 2 ≤ (cfftCoord arr
                (fun dj => (nfftOpt dj).getD (arr.length dj)) dxOpt true di).length := by
              rw [length_cfftCoord]
              exact hn2 di (List.mem_cons_of_mem d htail)
            have hu : UniformGap (cfftCoord arr
                (fun dj => (nfftOpt dj).getD (arr.length dj)) dxOpt true di)
                (1 / (dxRes arr dxOpt di * ((nfftOpt di).getD (arr.length di) : ℚ))) := by
              rw [cfftCoord, if_pos rfl]
              exact uniformGap_shifted_fftfreq _ _
            rw [binGap_eq_of_uniform hlen2 hu]
            exact hu
    · have hdid : di ∈ arr.dims := hpres di hdi
      refine ⟨cfftCoord arr (fun dj => (nfftOpt dj).getD (arr.length dj))
        dxOpt shift di, ?_, ?_, ?_⟩
      · rw [fftRaw]
        exact fold_coords_cfft arr _ dxOpt shift hdid l _ (by simp [hcx]) hdi
      · rw [length_cfftCoord]
        exact hn2 di hdi
      · intro hreal
        exact absurd hreal (by simp)
  have hchar2 : ∀ di ∈ l, ∃ v,
      (fftRaw arr (fun dj => (nfftOpt dj).getD (arr.length dj)) dxOpt l shift).coords
        ("f_" ++ di) = some v ∧ 2 ≤ v.length := by
    intro di hdi
    obtain ⟨v, h1, h2, -⟩ := hchar di hdi
    exact ⟨v, h1, h2⟩
  have hok := computeNormFactor_ok
    (fftRaw arr (fun dj => (nfftOpt dj).getD (arr.length dj)) dxOpt l shift).coords
    (fun dj => (nfftOpt dj).getD (arr.length dj)) l 1 1 hchar2
  refine ⟨_, fft_ok_of_norm hdet hok, ?_, ?_, ?_⟩
  · simp only [one_mul]
  · simp only [one_mul]
  · intro hreal hsh di hdi
    obtain ⟨v, h1, h2, h3⟩ := hchar di hdi
    exact ⟨v, h1, h3 hreal hsh⟩

/-- Witness for C2 on the scenario array (one dimension of length 8,
`dx = 1`): `ps_factor = 1/8² = 1/64` and, since `df = 1/8`,
`psd_factor = 1/((1/8)·8) = 1`. -/
theorem fft_norm_factors_witness :
    ∃ res, fft arrT (fun _ => none) ["t"] (fun _ => some 1) none false true =
        Except.ok res
      ∧ res.psFactor = 1 / 64 ∧ res.psdFactor = 1
      ∧ binGap (res.coords ("f_" ++ "t")) = 1 / 8 := by
  obtain ⟨res, heq, hps, hpsd, -⟩ := fft_norm_factors arrT (fun _ => none)
    (fun _ => some 1) true none ["t"] (by simp)
    (by intro di hdi; simpa [arrT] using hdi)
    (by simp)
    (by intro di hdi; simp [arrT])
  have hco : res.coords ("f_" ++ "t") = some (rfftfreq 8 1) := by
    have h5 := congrArg
      (fun r => match r with
        | Except.ok x => SpecResult.coords x ("f_" ++ "t")
        | Except.error _ => none) heq
    exact h5.symm.trans rfl
  have hbg : binGap (res.coords ("f_" ++ "t")) = 1 / 8 := by
    rw [hco]
    norm_num [binGap, rfftfreq, List.range_succ]
  refine ⟨res, heq, ?_, ?_, hbg⟩
  · rw [hps]; norm_num [arrT]
  · rw [hpsd]
    simp only [List.map_cons, List.map_nil, List.prod_cons, List.prod_nil]
    rw [hbg]
    norm_num [arrT]

/-! ### claim C6: unimplemented options fail before any transform -/

/-- **C6.** `detrend=linear` or `tapering=True` makes `fft` — and therefore
`ps` and `psd`, which call it — return the not-supported error raised before
the transform loop runs, so no partial result is produced (the result type
carries either an error or a full result, never both). -/
theorem unsupported_options_raise (arr : InArray) (nfftOpt : String → Option ℕ)
    (dim : List String) (dxOpt : String → Option ℚ) (detrend : Option String)
    (tapering : Bool) (shift : Bool) :
    (detrend = some "linear" →
      fft arr nfftOpt dim dxOpt detrend tapering shift =
        Except.error SpecError.notSupportedLinearDetrend
      ∧ ps arr nfftOpt dim dxOpt detrend tapering shift =
        Except.error SpecError.notSupportedLinearDetrend
      ∧ psd arr nfftOpt dim dxOpt detrend tapering shift =
        Except.error SpecError.notSupportedLinearDetrend)
    ∧ (detrend ≠ some "linear" → tapering = true →
      fft arr nfftOpt dim dxOpt detrend tapering shift =
        Except.error SpecError.notSupportedTapering
      ∧ ps arr nfftOpt dim dxOpt detrend tapering shift =
        Except.error SpecError.notSupportedTapering
      ∧ psd arr nfftOpt dim dxOpt detrend tapering shift =
        Except.error SpecError.notSupportedTapering) := by
  constructor
  · intro hdet
    have hfft : fft arr nfftOpt dim dxOpt detrend tapering shift =
        Except.error SpecError.notSupportedLinearDetrend := by
      rw [fft, if_pos hdet]
    exact ⟨hfft, by rw [ps, hfft]; rfl, by rw [psd, hfft]; rfl⟩
  · intro hdet htap
    subst htap
    have hfft : fft arr nfftOpt dim dxOpt detrend true shift =
        Except.error SpecError.notSupportedTapering := by
      rw [fft, if_neg hdet]
      rfl
    exact ⟨hfft, by rw [ps, hfft]; rfl, by rw [psd, hfft]; rfl⟩

/-- Witness for C6: on the scenario array, `detrend=linear` and
`tapering=True` each give the not-supported error for `fft`, `ps`, `psd`. -/
theorem unsupported_options_raise_witness :
    fft arrT (fun _ => none) ["t"] (fun _ => some 1) (some "linear") false false =
      Except.error SpecError.notSupportedLinearDetrend
    ∧ ps arrT (fun _ => none) ["t"] (fun _ => some 1) (some "linear") false false =
      Except.error SpecError.notSupportedLinearDetrend
    ∧ psd arrT (fun _ => none) ["t"] (fun _ => some 1) none true false =
      Except.error SpecError.notSupportedTapering := by
  have h1 := (unsupported_options_raise arrT (fun _ => none) ["t"]
    (fun _ => some 1) (some "linear") false false).1 rfl
  have h2 := (unsupported_options_raise arrT (fun _ => none) ["t"]
    (fun _ => some 1) none true false).2 (by simp) rfl
  exact ⟨h1.1, h1.2.1, h2.2.2⟩

/-! ### claim C7: the power spectrum is real and non-negative -/

theorem normStep_ok_nonneg {coords : String → Option (List ℚ)}
    {nfft : String → ℕ} {acc acc' : ℚ × ℚ} {di : String}
    (hacc : 0 ≤ acc.1) (h : normStep coords nfft acc di = Except.ok acc') :
    0 ≤ acc'.1 := by
  rw [normStep] at h
  cases hco : coords ("f_" ++ di) with
  | none => rw [hco] at h; exact Except.noConfusion h
  | some v =>
    rw [hco] at h
    match v with
    | [] => simp [diffHead] at h
    | [a] => simp [diffHead] at h
    | a :: b :: t =>
      simp [diffHead] at h
      rw [← h]
      exact div_nonneg hacc (pow_two_nonneg _)

theorem computeNormFactor_fst_nonneg (coords : String → Option (List ℚ))
    (nfft : String → ℕ) :
    ∀ (l : List String) (acc : ℚ × ℚ), 0 ≤ acc.1 →
    ∀ pq, computeNormFactor coords nfft l acc = Except.ok pq → 0 ≤ pq.1 := by
  intro l
  induction l with
  | nil =>
    intro acc hacc pq h
    rw [computeNormFactor] at h
    have := Except.ok.inj h
    rw [← this]
    exact hacc
  | cons di rest ih =>
    intro acc hacc pq h
    rw [computeNormFactor] at h
    cases hs : normStep coords nfft acc di with
    | error e => rw [hs] at h; exact Except.noConfusion h
    | ok acc' =>
      rw [hs] at h
      exact ih acc' (normStep_ok_nonneg hacc hs) pq h

theorem fft_psFactor_nonneg {arr : InArray} {nfftOpt : String → Option ℕ}
    {dim : List String} {dxOpt : String → Option ℚ} {detrend : Option String}
    {tapering : Bool} {shift : Bool} {spec : SpecResult}
    (h : fft arr nfftOpt dim dxOpt detrend tapering shift = Except.ok spec) :
    0 ≤ spec.psFactor := by
  by_cases h1 : detrend = some "linear"
  · rw [fft, if_pos h1] at h
    exact Except.noConfusion h
  · rw [fft, if_neg h1] at h
    cases tapering
    · simp only [Bool.false_eq_true, if_false] at h
      cases hcnf : computeNormFactor
          (fftRaw arr (fun di => (nfftOpt di).getD (arr.length di)) dxOpt dim shift).coords
          (fun di => (nfftOpt di).getD (arr.length di)) dim (1, 1) with
      | error e => rw [hcnf] at h; exact Except.noConfusion h
      | ok pq =>
        rw [hcnf] at h
        have hspec := Except.ok.inj h
        have hps : spec.psFactor = pq.1 := by rw [← hspec]
        rw [hps]
        exact computeNormFactor_fst_nonneg _ _ dim (1, 1) (by norm_num) pq hcnf
    · simp only [if_pos rfl] at h
      exact Except.noConfusion h

/-- **C7.** For a real-valued input array, every element of the `ps` output
is real and non-negative: the element-level post-processing
`(spec * conj(spec)).real * ps_factor` applied to any spectrum entry `z`
yields the real number `(re² + im²) · ps_factor ≥ 0`, since the imaginary
part of `z·conj(z)` vanishes and the accumulated `ps_factor` is
non-negative. -/
theorem ps_real_nonneg (arr : InArray) (nfftOpt : String → Option ℕ)
    (dim : List String) (dxOpt : String → Option ℚ) (detrend : Option String)
    (tapering : Bool) (shift : Bool) (hreal : arr.isComplex = false) :
    ∀ res, ps arr nfftOpt dim dxOpt detrend tapering shift = Except.ok res →
      ∀ z : Cx, (z.mul z.conj).im = 0
        ∧ res.elem z = (z.re ^ 2 + z.im ^ 2) * res.base.psFactor
        ∧ 0 ≤ res.elem z := by
  intro res hres z
  rw [ps] at hres
  cases hf : fft arr nfftOpt dim dxOpt detrend tapering shift with
  | error e => rw [hf] at hres; exact Except.noConfusion hres
  | ok spec =>
    rw [hf] at hres
    have hres' := Except.ok.inj hres
    have hfac : 0 ≤ spec.psFactor := fft_psFactor_nonneg hf
    subst hres'
    refine ⟨?_, ?_, ?_⟩
    · show (z.mul z.conj).im = 0
      simp only [Cx.mul, Cx.conj]
      ring
    · show (z.mul z.conj).re * spec.psFactor =
        (z.re ^ 2 + z.im ^ 2) * spec.psFactor
      simp only [Cx.mul, Cx.conj]
      ring
    · show 0 ≤ (z.mul z.conj).re * spec.psFactor
      refine mul_nonneg ?_ hfac
      simp only [Cx.mul, Cx.conj]
      nlinarith [sq_nonneg z.re, sq_nonneg z.im]

/-- Witness for C7: on the scenario array the `ps` call succeeds and at the
spectrum entry `3 - 4i` the output element is real and non-negative. -/
theorem ps_real_nonneg_witness :
    ∃ res, ps arrT (fun _ => none) ["t"] (fun _ => some 1) none false true =
        Except.ok res
      ∧ (Cx.mul ⟨3, -4⟩ (Cx.conj ⟨3, -4⟩)).im = 0
      ∧ 0 ≤ res.elem ⟨3, -4⟩ := by
  obtain ⟨res, hres⟩ : ∃ res,
      ps arrT (fun _ => none) ["t"] (fun _ => some 1) none false true =
        Except.ok res := ⟨_, rfl⟩
  have h := ps_real_nonneg arrT (fun _ => none) ["t"] (fun _ => some 1)
    none false true rfl res hres ⟨3, -4⟩
  exact ⟨res, hres, h.1, h.2.2⟩

/-! ### claim C9: a missing requested dimension -/

/-- **C9** (code behavior at the failing input).  Requesting the absent
dimension `bogus` alongside `t` makes the `_fft` loop warn (naming the
dimension) and complete the transform exactly as the call without `bogus`
would — same `f_t` coordinate, same transform trace — but the subsequent
`_compute_norm_factor` pass then looks up the non-existent `f_bogus`
coordinate, so the overall `fft` call aborts with a `KeyError` instead of
returning the result for the remaining dimensions. -/
theorem missing_dim_warns_then_keyerror :
    fft arrT (fun _ => none) ["t", "bogus"] (fun _ => some 1) none false false =
      Except.error (SpecError.keyError ("f_" ++ "bogus"))
    ∧ (fftRaw arrT (fun di => ((fun _ => (none : Option ℕ)) di).getD (arrT.length di))
        (fun _ => some 1) ["t", "bogus"] false).warns = [warnMsg "bogus"]
    ∧ (fftRaw arrT (fun di => ((fun _ => (none : Option ℕ)) di).getD (arrT.length di))
        (fun _ => some 1) ["t", "bogus"] false).coords ("f_" ++ "t") =
      (fftRaw arrT (fun di => ((fun _ => (none : Option ℕ)) di).getD (arrT.length di))
        (fun _ => some 1) ["t"] false).coords ("f_" ++ "t")
    ∧ (fftRaw arrT (fun di => ((fun _ => (none : Option ℕ)) di).getD (arrT.length di))
        (fun _ => some 1) ["t", "bogus"] false).ops =
      (fftRaw arrT (fun di => ((fun _ => (none : Option ℕ)) di).getD (arrT.length di))
        (fun _ => some 1) ["t"] false).ops := by
  exact ⟨rfl, rfl, rfl, rfl⟩


theorem length_sortDesc (l : List ℚ) : (sortDesc l).length = l.length := by
  rw [sortDesc, List.length_insertionSort]

theorem length_sinfitFreqs (periods : List ℚ) :
    (sinfitFreqs periods).length = periods.length := by
  rw [sinfitFreqs, List.length_map, length_sortDesc]

/-! ### claim C8: `sinfit` sorts the caller-supplied `periods` list in place -/

/-- Counterexample to C8 as stated: after `sinfit` is called with the list
`[12, 24]`, that list is no longer `[12, 24]` — it has been sorted
in place to `[24, 12]`. -/
theorem sinfit_mutates_periods_counterexample :
    sinfitPeriodsAfter [12, 24] ≠ [12, 24]
    ∧ sinfitPeriodsAfter [12, 24] = [24, 12] := by
  have h : sinfitPeriodsAfter [12, 24] = [24, 12] := by
    norm_num [sinfitPeriodsAfter, sortDesc, List.insertionSort, List.orderedInsert]
  exact ⟨by rw [h]; intro hc; exact absurd (List.head_eq_of_cons_eq hc) (by norm_num), h⟩

/-- **C8 (amended).** The embedded operations are pure except for one
mutation: `sinfit` sorts the caller-supplied `periods` list in place.  The
list after the call is the descending sort of — hence a permutation of —
the list before it, and is unchanged exactly when the caller already passed
it sorted in descending order.  The input array itself is never mutated. -/
theorem sinfit_periods_mutation (periods : List ℚ) :
    (sinfitPeriodsAfter periods).Perm periods
    ∧ List.Sorted (fun a b => a ≥ b) (sinfitPeriodsAfter periods)
    ∧ (List.Sorted (fun a b => a ≥ b) periods →
        sinfitPeriodsAfter periods = periods) :=
  ⟨List.perm_insertionSort _ _, List.sorted_insertionSort _ _,
    fun h => List.Sorted.insertionSort_eq h⟩

/-- Witness for the amended C8: `[12, 24]` comes back as a sorted
permutation, and the already-descending `[24, 12]` is left unchanged. -/
theorem sinfit_periods_mutation_witness :
    (sinfitPeriodsAfter [12, 24]).Perm [12, 24]
    ∧ List.Sorted (fun a b => a ≥ b) (sinfitPeriodsAfter [12, 24])
    ∧ sinfitPeriodsAfter [24, 12] = [24, 12] := by
  have h1 := sinfit_periods_mutation [12, 24]
  have h2 := sinfit_periods_mutation [24, 12]
  refine ⟨h1.1, h1.2.1, h2.2.2 ?_⟩
  rw [List.sorted_cons]
  constructor
  · intro b hb
    rw [List.mem_singleton.mp hb]
    norm_num
  · simp

/-! ### claim C3: design-matrix layout and coefficient decomposition -/

/-- **C3.** For `k` positive periods, `sinfit` builds `n = 2k+1` design
columns in the exact order: cosines of the `k` frequencies in descending
frequency order (column `i < k` is the cosine of ascending frequency number
`k-1-i`, so the lowest-frequency cosine sits next to the constant), then
the constant column, then sines in ascending frequency order; the solution
vector decomposes as `b = c[0:k]` reversed, `a = c[k+1:n]`,
`offset = c[k]`, and mode `i` carries period `sorted[i]`,
`amplitude = sqrt(a_i² + b_i²)` and `phase = atan2(b_i, a_i)·180/π` with
`a_i = c[k+1+i]`, `b_i = c[k-1-i]`. -/
theorem sinfit_design_and_decomposition (periods : List ℚ) (k : ℕ)
    (hk : periods.length = k) (hpos : ∀ p ∈ periods, 0 < p)
    (cs : List ℝ) (hcs : cs.length = sinfitN periods) :
    sinfitN periods = 2 * k + 1
    ∧ (sinfitCols periods).length = 2 * k + 1
    ∧ List.Sorted (fun a b => a ≤ b) (sinfitFreqs periods)
    ∧ (∀ i, i < k → (sinfitCols periods)[i]? =
        some (DesignCol.cosF ((sinfitFreqs periods).getD (k - 1 - i) 0)))
    ∧ (sinfitCols periods)[k]? = some DesignCol.one
    ∧ (∀ i, i < k → (sinfitCols periods)[k + 1 + i]? =
        some (DesignCol.sinF ((sinfitFreqs periods).getD i 0)))
    ∧ sinfitB cs (sinfitN periods) = (cs.take k).reverse
    ∧ sinfitA cs (sinfitN periods) = cs.drop (k + 1)
    ∧ sinfitOffset cs (sinfitN periods) = cs.getD k 0
    ∧ (∀ i, i < k → (sinfitModes periods cs)[i]? =
        some ((sortDesc periods).getD i 0,
          Real.sqrt ((cs.getD (k + 1 + i) 0) ^ 2 + (cs.getD (k - 1 - i) 0) ^ 2),
          atan2 (cs.getD (k - 1 - i) 0) (cs.getD (k + 1 + i) 0) * 180 / Real.pi)) := by
  have hlf : (sinfitFreqs periods).length = k := by rw [length_sinfitFreqs, hk]
  have hn : sinfitN periods = 2 * k + 1 := by rw [sinfitN, hk]
  have hn2 : sinfitN periods / 2 = k := by rw [hn]; omega
  have hF : ((sinfitFreqs periods).reverse.map DesignCol.cosF).length = k := by
    rw [List.length_map, List.length_reverse, hlf]
  have hF1 : (((sinfitFreqs periods).reverse.map DesignCol.cosF) ++
      [DesignCol.one]).length = k + 1 := by
    rw [List.length_append, hF]
    rfl
  have hcsl : cs.length = 2 * k + 1 := by rw [hcs, hn]
  refine ⟨hn, ?_, ?_, ?_, ?_, ?_, ?_, ?_, ?_, ?_⟩
  · rw [sinfitCols, List.length_append, List.length_append, hF, List.length_map, hlf]
    simp only [List.length_singleton]
    omega
  · rw [sinfitFreqs]
    have hs : List.Sorted (fun a b => a ≥ b) (sortDesc periods) :=
      List.sorted_insertionSort _ _
    have hmem : ∀ p ∈ sortDesc periods, 0 < p := fun p hp =>
      hpos p ((List.perm_insertionSort _ _).mem_iff.mp hp)
    rw [List.Sorted, List.pairwise_map]
    exact (List.Pairwise.imp_of_mem
      (fun {a b} ha hb hab => one_div_le_one_div_of_le (hmem b hb) hab) hs)
  · intro i hi
    rw [sinfitCols, List.getElem?_append, if_pos (by rw [hF1]; omega),
      List.getElem?_append, if_pos (by rw [hF]; omega),
      List.getElem?_map,
      List.getElem?_reverse (by rw [hlf]; omega), hlf,
      List.getElem?_eq_getElem (by rw [hlf]; omega),
      List.getD_eq_getElem _ _ (by rw [hlf]; omega)]
    rfl
  · rw [sinfitCols, List.getElem?_append, if_pos (by rw [hF1]; omega),
      List.getElem?_append_right (by rw [hF]), hF]
    simp
  · intro i hi
    rw [sinfitCols, List.getElem?_append_right (by rw [hF1]; omega), hF1]
    have hidx : k + 1 + i - (k + 1) = i := by omega
    rw [hidx, List.getElem?_map,
      List.getElem?_eq_getElem (by rw [hlf]; omega),
      List.getD_eq_getElem _ _ (by rw [hlf]; omega)]
    rfl
  · rw [sinfitB, hn2]
  · rw [sinfitA, hn2]
  · rw [sinfitOffset, hn2]
  · intro i hi
    have hA : (sinfitA cs (sinfitN periods))[i]? = some (cs.getD (k + 1 + i) 0) := by
      rw [sinfitA, hn2, List.getElem?_drop,
        List.getElem?_eq_getElem (by omega),
        List.getD_eq_getElem _ _ (by omega)]
    have hBl : (cs.take k).length = k := by
      rw [List.length_take]
      omega
    have hB : (sinfitB cs (sinfitN periods))[i]? = some (cs.getD (k - 1 - i) 0) := by
      rw [sinfitB, hn2, List.getElem?_reverse (by rw [hBl]; omega), hBl,
        List.getElem?_take, if_pos (by omega),
        List.getElem?_eq_getElem (by omega),
        List.getD_eq_getElem _ _ (by omega)]
    rw [sinfitModes, List.zip_eq_zipWith, List.getElem?_zipWith,
      List.getElem?_eq_getElem (show i < (sortDesc periods).length by
        rw [length_sortDesc, hk]; omega),
      List.getD_eq_getElem _ _ (show i < (sortDesc periods).length by
        rw [length_sortDesc, hk]; omega),
      List.getElem?_map, List.zip_eq_zipWith, List.getElem?_zipWith, hA, hB]
    rfl

/-- Witness for C3 at `periods = [4, 2]` (so `k = 2`, ascending frequencies
`[1/4, 1/2]`) and solution vector `c = [1, 2, 3, 4, 5]`: the five columns
are `cos(1/2), cos(1/4), 1, sin(1/4), sin(1/2)` and the decomposition gives
`offset = c[2] = 3`, `b = [2, 1]`, `a = [4, 5]`. -/
theorem sinfit_design_and_decomposition_witness :
    sinfitFreqs [4, 2] = [1/4, 1/2]
    ∧ (sinfitCols [4, 2])[0]? = some (DesignCol.cosF ((sinfitFreqs [4, 2]).getD 1 0))
    ∧ (sinfitCols [4, 2])[2]? = some DesignCol.one
    ∧ (sinfitCols [4, 2])[2 + 1 + 0]? =
        some (DesignCol.sinF ((sinfitFreqs [4, 2]).getD 0 0))
    ∧ sinfitOffset [1, 2, 3, 4, 5] (sinfitN [4, 2]) = 3
    ∧ sinfitB [1, 2, 3, 4, 5] (sinfitN [4, 2]) = ([2, 1] : List ℝ)
    ∧ sinfitA [1, 2, 3, 4, 5] (sinfitN [4, 2]) = ([4, 5] : List ℝ) := by
  have h := sinfit_design_and_decomposition [4, 2] 2 rfl
    (by
      intro p hp
      rcases List.mem_cons.mp hp with h1 | h2
      · rw [h1]; norm_num
      · rw [List.mem_singleton.mp h2]; norm_num)
    [1, 2, 3, 4, 5] (by rw [sinfitN]; rfl)
  obtain ⟨hn, hlen, hsort, hcos, hone, hsin, hB, hA, hoff, hmode⟩ := h
  refine ⟨?_, ?_, ?_, ?_, ?_, ?_, ?_⟩
  · norm_num [sinfitFreqs, sortDesc, List.insertionSort, List.orderedInsert]
  · exact hcos 0 (by norm_num)
  · exact hone
  · exact hsin 0 (by norm_num)
  · rw [hoff]; rfl
  · rw [hB]; rfl
  · rw [hA]; rfl

/-! ### claim C4: the fit/evaluate round trip -/

/-- Rewriting one mode through its amplitude/phase form: for any cosine
coefficient `b` and sine coefficient `a`,
`sqrt(a²+b²) · sin(θ + atan2(b,a)) = a·sin θ + b·cos θ`. -/
theorem ampPhase_sin (a b θ : ℝ) :
    (ampPhase a b).1 * Real.sin (θ + (ampPhase a b).2 * Real.pi / 180) =
      a * Real.sin θ + b * Real.cos θ := by
  have hp : (ampPhase a b).2 * Real.pi / 180 = atan2 b a := by
    show atan2 b a * 180 / Real.pi * Real.pi / 180 = atan2 b a
    field_simp
  rw [hp]
  show Real.sqrt (a ^ 2 + b ^ 2) * Real.sin (θ + atan2 b a) = _
  by_cases hz : (⟨a, b⟩ : ℂ) = 0
  · have ha : a = 0 := by have := congrArg Complex.re hz; simpa using this
    have hb : b = 0 := by have := congrArg Complex.im hz; simpa using this
    rw [ha, hb]
    simp
  · have habs : Complex.abs ⟨a, b⟩ = Real.sqrt (a ^ 2 + b ^ 2) := by
      rw [Complex.abs_apply, Complex.normSq_mk]
      ring_nf
    have hcos : Real.cos (atan2 b a) = a / Real.sqrt (a ^ 2 + b ^ 2) := by
      rw [atan2, Complex.cos_arg hz, habs]
    have hsin : Real.sin (atan2 b a) = b / Real.sqrt (a ^ 2 + b ^ 2) := by
      rw [atan2, Complex.sin_arg, habs]
    have hr : Real.sqrt (a ^ 2 + b ^ 2) ≠ 0 := by
      rw [← habs]
      exact Complex.abs.ne_zero hz
    rw [Real.sin_add, hcos, hsin]
    field_simp
    ring


theorem dot_pair_sum (t : ℝ) : ∀ (fs : List ℚ) (aL bL : List ℝ),
    aL.length = fs.length → bL.length = fs.length →
    (List.zipWith (fun x y => x * y)
        (fs.map (fun f : ℚ => Real.sin (2 * Real.pi * (f : ℝ) * t))) aL).sum +
      (List.zipWith (fun x y => x * y)
        (fs.map (fun f : ℚ => Real.cos (2 * Real.pi * (f : ℝ) * t))) bL).sum =
      ((fs.zip (aL.zip bL)).map (modeTerm t)).sum := by
  intro fs
  induction fs with
  | nil => intro aL bL ha hb; simp
  | cons f fs ih =>
    intro aL bL ha hb
    cases aL with
    | nil => simp at ha
    | cons a aL =>
      cases bL with
      | nil => simp at hb
      | cons b bL =>
        simp only [List.map_cons, List.zipWith_cons_cons, List.sum_cons,
          List.zip_cons_cons]
        rw [← ih aL bL (by simpa using ha) (by simpa using hb)]
        rw [modeTerm]
        ring

/-- The dot product of a design row with any coefficient vector of length
`2k+1` equals the constant coefficient plus the modal sum over the
frequency list zipped with the decomposed `a`/`b` coefficient lists. -/
theorem dotL_designRow (periods : List ℚ) (t : ℝ) (cs : List ℝ)
    (hcs : cs.length = sinfitN periods) :
    dotL (designRow periods t) cs =
      cs.getD periods.length 0 +
      (((sinfitFreqs periods).zip
        ((sinfitA cs (sinfitN periods)).zip (sinfitB cs (sinfitN periods)))).map
          (modeTerm t)).sum := by
  set k := periods.length with hkdef
  have hn2 : sinfitN periods / 2 = k := by rw [sinfitN]; omega
  have hcsl : cs.length = 2 * k + 1 := by rw [hcs, sinfitN]
  have hk_lt : k < cs.length := by omega
  have hrow : designRow periods t =
      ((sinfitFreqs periods).reverse.map
        (fun f : ℚ => Real.cos (2 * Real.pi * (f : ℝ) * t)))
      ++ [(1 : ℝ)]
      ++ ((sinfitFreqs periods).map
        (fun f : ℚ => Real.sin (2 * Real.pi * (f : ℝ) * t))) := by
    rw [designRow, sinfitCols, List.map_append, List.map_append,
      List.map_map, List.map_map]
    rfl
  have hdropk : cs.drop k = cs.getD k 0 :: cs.drop (k + 1) := by
    rw [List.getD_eq_getElem _ _ hk_lt]
    exact List.drop_eq_getElem_cons hk_lt
  have hsplit : (cs.take k ++ [cs.getD k 0]) ++ cs.drop (k + 1) = cs := by
    rw [List.append_assoc, List.singleton_append, ← hdropk,
      List.take_append_drop]
  have htk : (cs.take k).length = k := by
    rw [List.length_take]
    omega
  have hA : sinfitA cs (sinfitN periods) = cs.drop (k + 1) := by
    rw [sinfitA, hn2]
  have hB : sinfitB cs (sinfitN periods) = (cs.take k).reverse := by
    rw [sinfitB, hn2]
  have hlc : ((sinfitFreqs periods).reverse.map
      (fun f : ℚ => Real.cos (2 * Real.pi * (f : ℝ) * t))).length = k := by
    rw [List.length_map, List.length_reverse, length_sinfitFreqs]
  rw [dotL, hrow]
  conv_lhs => rw [← hsplit]
  rw [List.zipWith_append _ _ _ _ _ (by
      rw [List.length_append, hlc, List.length_append, htk]
      rfl),
    List.zipWith_append _ _ _ _ _ (by rw [hlc, htk]),
    List.sum_append, List.sum_append]
  have hchunk1 : (List.zipWith (fun x y => x * y)
      ((sinfitFreqs periods).reverse.map
        (fun f : ℚ => Real.cos (2 * Real.pi * (f : ℝ) * t))) (cs.take k)).sum =
      (List.zipWith (fun x y => x * y)
        ((sinfitFreqs periods).map
          (fun f : ℚ => Real.cos (2 * Real.pi * (f : ℝ) * t)))
        ((cs.take k).reverse)).sum := by
    conv_lhs => rw [← List.reverse_reverse (cs.take k)]
    rw [List.map_reverse, ← List.reverse_zipWith (by
      rw [List.length_map, length_sinfitFreqs, List.length_reverse, htk]),
      List.sum_reverse]
  have hps := dot_pair_sum t (sinfitFreqs periods) (cs.drop (k + 1))
    ((cs.take k).reverse)
    (by rw [List.length_drop, length_sinfitFreqs, hcsl]; omega)
    (by rw [List.length_reverse, htk, length_sinfitFreqs])
  rw [hchunk1, hA, hB]
  simp only [List.zipWith_cons_cons, List.zipWith_nil_right, List.sum_cons,
    List.sum_nil, one_mul]
  linarith [hps]

/-- `sinval` applied to the modes `sinfit` assembles from a coefficient
vector equals the constant coefficient plus the same modal sum: each
amplitude/phase pair collapses back to its `a`/`b` pair by `ampPhase_sin`. -/
theorem sinval_modes_eq (periods : List ℚ) (cs : List ℝ) (t : ℝ) :
    sinval (sinfitOffset cs (sinfitN periods)) (sinfitModes periods cs) t =
      cs.getD periods.length 0 +
      (((sinfitFreqs periods).zip
        ((sinfitA cs (sinfitN periods)).zip (sinfitB cs (sinfitN periods)))).map
          (modeTerm t)).sum := by
  have hn2 : sinfitN periods / 2 = periods.length := by rw [sinfitN]; omega
  rw [sinval, sinfitOffset, hn2, sinfitModes]
  congr 1
  rw [List.zip_map_right, List.map_map, sinfitFreqs, List.zip_map_left,
    List.map_map]
  refine congrArg List.sum ?_
  apply List.map_congr_left
  intro x _
  obtain ⟨p, ab⟩ := x
  obtain ⟨a, b⟩ := ab
  show (ampPhase a b).1 *
      Real.sin (2 * Real.pi * t / (p : ℝ) + (ampPhase a b).2 * Real.pi / 180) =
    modeTerm t (1 / p, a, b)
  rw [ampPhase_sin a b (2 * Real.pi * t / (p : ℝ)), modeTerm]
  have hθ : 2 * Real.pi * (((1 / p : ℚ)) : ℝ) * t = 2 * Real.pi * t / (p : ℝ) := by
    push_cast
    ring
  show a * Real.sin (2 * Real.pi * t / (p : ℝ)) +
      b * Real.cos (2 * Real.pi * t / (p : ℝ)) = _
  rw [hθ]

theorem list_sum_zero_of_nonneg {l : List ℝ} (h0 : ∀ x ∈ l, 0 ≤ x)
    (hs : l.sum = 0) : ∀ x ∈ l, x = 0 := by
  induction l with
  | nil => intro x hx; simp at hx
  | cons a l ih =>
    intro x hx
    rw [List.sum_cons] at hs
    have hln : 0 ≤ l.sum :=
      List.sum_nonneg (fun y hy => h0 y (List.mem_cons_of_mem a hy))
    have ha : 0 ≤ a := h0 a (List.mem_cons_self a l)
    have ha0 : a = 0 := by linarith
    have hl0 : l.sum = 0 := by linarith
    rcases List.mem_cons.mp hx with h1 | h2
    · rw [h1, ha0]
    · exact ih (fun y hy => h0 y (List.mem_cons_of_mem a hy)) hl0 x h2

/-- **C4.** A signal synthesized as
`offset + Σ_p amps[p]·sin(2π t/periods[p] + phases[p]·π/180)` and sampled at
the coordinates `ts` is reproduced exactly — hence within `1e-6` relative
tolerance — by evaluating `sinval` at the same coordinates on the modes
`sinfit` decomposes from any least-squares solution of its design system
(the solver `da.linalg.lstsq` is external; its contract is the `IsLstsqSol`
hypothesis).  The periods are taken already sorted in descending order, the
order that the in-place sort in `sinfit` fixes. -/
theorem sinfit_sinval_roundtrip (periods : List ℚ) (amps phases : List ℝ)
    (offset0 : ℝ) (ts : List ℝ)
    (hsorted : List.Sorted (fun a b => a ≥ b) periods)
    (hla : amps.length = periods.length) (hlp : phases.length = periods.length)
    (cs : List ℝ)
    (hlst : IsLstsqSol periods
      (ts.map (fun t =>
        (t, sinval offset0 (periods.zip (amps.zip phases)) t))) cs) :
    ∀ t ∈ ts,
      sinval (sinfitOffset cs (sinfitN periods)) (sinfitModes periods cs) t =
        sinval offset0 (periods.zip (amps.zip phases)) t
      ∧ |sinval (sinfitOffset cs (sinfitN periods)) (sinfitModes periods cs) t -
          sinval offset0 (periods.zip (amps.zip phases)) t| ≤
        (1 / 1000000) * |sinval offset0 (periods.zip (amps.zip phases)) t| := by
  have hsd : sortDesc periods = periods := List.Sorted.insertionSort_eq hsorted
  have hn2 : sinfitN periods / 2 = periods.length := by rw [sinfitN]; omega
  have htrip : (periods.zip (amps.zip phases)).length = periods.length := by
    rw [List.length_zip, List.length_zip, hla, hlp]
    simp
  have ha0l : ((periods.zip (amps.zip phases)).map
      (fun x => x.2.1 * Real.cos (x.2.2 * Real.pi / 180))).length = periods.length := by
    rw [List.length_map, htrip]
  have hb0l : ((periods.zip (amps.zip phases)).map
      (fun x => x.2.1 * Real.sin (x.2.2 * Real.pi / 180))).length = periods.length := by
    rw [List.length_map, htrip]
  have hb0rl : (((periods.zip (amps.zip phases)).map
      (fun x => x.2.1 * Real.sin (x.2.2 * Real.pi / 180))).reverse).length =
      periods.length := by
    rw [List.length_reverse, hb0l]
  have hcs0l : (((periods.zip (amps.zip phases)).map
        (fun x => x.2.1 * Real.sin (x.2.2 * Real.pi / 180))).reverse ++
      ([offset0] ++ (periods.zip (amps.zip phases)).map
        (fun x => x.2.1 * Real.cos (x.2.2 * Real.pi / 180)))).length =
      sinfitN periods := by
    rw [List.length_append, hb0rl, List.length_append, List.length_singleton,
      ha0l, sinfitN]
    omega
  have hA0 : sinfitA (((periods.zip (amps.zip phases)).map
        (fun x => x.2.1 * Real.sin (x.2.2 * Real.pi / 180))).reverse ++
      ([offset0] ++ (periods.zip (amps.zip phases)).map
        (fun x => x.2.1 * Real.cos (x.2.2 * Real.pi / 180))))
      (sinfitN periods) =
      (periods.zip (amps.zip phases)).map
        (fun x => x.2.1 * Real.cos (x.2.2 * Real.pi / 180)) := by
    rw [sinfitA, hn2, show periods.length + 1 = (((periods.zip (amps.zip phases)).map
        (fun x => x.2.1 * Real.sin (x.2.2 * Real.pi / 180))).reverse).length + 1
      from by rw [hb0rl], List.drop_append]
    simp
  have hB0 : sinfitB (((periods.zip (amps.zip phases)).map
        (fun x => x.2.1 * Real.sin (x.2.2 * Real.pi / 180))).reverse ++
      ([offset0] ++ (periods.zip (amps.zip phases)).map
        (fun x => x.2.1 * Real.cos (x.2.2 * Real.pi / 180))))
      (sinfitN periods) =
      (periods.zip (amps.zip phases)).map
        (fun x => x.2.1 * Real.sin (x.2.2 * Real.pi / 180)) := by
    rw [sinfitB, hn2, show periods.length = (((periods.zip (amps.zip phases)).map
        (fun x => x.2.1 * Real.sin (x.2.2 * Real.pi / 180))).reverse).length
      from hb0rl.symm, List.take_left, List.reverse_reverse]
  have hoff0 : (((periods.zip (amps.zip phases)).map
        (fun x => x.2.1 * Real.sin (x.2.2 * Real.pi / 180))).reverse ++
      ([offset0] ++ (periods.zip (amps.zip phases)).map
        (fun x => x.2.1 * Real.cos (x.2.2 * Real.pi / 180)))).getD
      periods.length 0 = offset0 := by
    rw [List.getD_eq_getElem?_getD,
      List.getElem?_append_right (by rw [hb0rl]), hb0rl]
    simp
  have hrow0 : ∀ t : ℝ, dotL (designRow periods t)
      (((periods.zip (amps.zip phases)).map
        (fun x => x.2.1 * Real.sin (x.2.2 * Real.pi / 180))).reverse ++
      ([offset0] ++ (periods.zip (amps.zip phases)).map
        (fun x => x.2.1 * Real.cos (x.2.2 * Real.pi / 180)))) =
      sinval offset0 (periods.zip (amps.zip phases)) t := by
    intro t
    rw [dotL_designRow periods t _ hcs0l, hA0, hB0, hoff0, sinval]
    congr 1
    have hfst : (periods.zip (amps.zip phases)).map Prod.fst = periods :=
      List.map_fst_zip _ _ (by rw [List.length_zip, hla, hlp]; simp)
    have hfr : sinfitFreqs periods =
        (periods.zip (amps.zip phases)).map (fun x => 1 / x.1) := by
      rw [sinfitFreqs, hsd]
      conv_lhs => rw [← hfst]
      rw [List.map_map]
      rfl
    rw [hfr, List.zip_map', List.zip_map', List.map_map]
    refine congrArg List.sum (List.map_congr_left ?_)
    intro x _
    obtain ⟨p, A, φ⟩ := x
    simp only [Function.comp_apply]
    rw [modeTerm]
    dsimp only
    have hθ : 2 * Real.pi * (((1 / p : ℚ)) : ℝ) * t = 2 * Real.pi * t / (p : ℝ) := by
      push_cast
      ring
    rw [hθ, Real.sin_add]
    ring
  have hres0 : lstsqResidual periods
      (ts.map (fun t => (t, sinval offset0 (periods.zip (amps.zip phases)) t)))
      (((periods.zip (amps.zip phases)).map
        (fun x => x.2.1 * Real.sin (x.2.2 * Real.pi / 180))).reverse ++
      ([offset0] ++ (periods.zip (amps.zip phases)).map
        (fun x => x.2.1 * Real.cos (x.2.2 * Real.pi / 180)))) = 0 := by
    rw [lstsqResidual, List.map_map]
    apply List.sum_eq_zero
    intro x hx
    rcases List.mem_map.mp hx with ⟨t, _, rfl⟩
    show (dotL (designRow periods t) _ -
        sinval offset0 (periods.zip (amps.zip phases)) t) ^ 2 = 0
    rw [hrow0 t, sub_self]
    norm_num
  have hmin := hlst.2 _ hcs0l
  rw [hres0] at hmin
  have hnn : ∀ x ∈ (ts.map (fun t =>
      (t, sinval offset0 (periods.zip (amps.zip phases)) t))).map
        (fun s => (dotL (designRow periods s.1) cs - s.2) ^ 2), 0 ≤ x := by
    intro x hx
    rcases List.mem_map.mp hx with ⟨s, _, rfl⟩
    exact pow_two_nonneg _
  have hres : lstsqResidual periods
      (ts.map (fun t => (t, sinval offset0 (periods.zip (amps.zip phases)) t)))
      cs = 0 :=
    le_antisymm hmin (List.sum_nonneg hnn)
  have hterm : ∀ t ∈ ts, dotL (designRow periods t) cs =
      sinval offset0 (periods.zip (amps.zip phases)) t := by
    intro t ht
    rw [lstsqResidual, List.map_map] at hres
    have hmem : ((fun s : ℝ × ℝ => (dotL (designRow periods s.1) cs - s.2) ^ 2) ∘
        (fun t => (t, sinval offset0 (periods.zip (amps.zip phases)) t))) t ∈
        ts.map ((fun s : ℝ × ℝ => (dotL (designRow periods s.1) cs - s.2) ^ 2) ∘
          (fun t => (t, sinval offset0 (periods.zip (amps.zip phases)) t))) :=
      List.mem_map.mpr ⟨t, ht, rfl⟩
    have hzero := list_sum_zero_of_nonneg (by
        intro x hx
        rcases List.mem_map.mp hx with ⟨s, _, rfl⟩
        exact pow_two_nonneg _) hres _ hmem
    have hsq : (dotL (designRow periods t) cs -
        sinval offset0 (periods.zip (amps.zip phases)) t) ^ 2 = 0 := hzero
    have := (pow_eq_zero_iff (by norm_num : (2 : ℕ) ≠ 0)).mp hsq
    linarith [this]
  intro t ht
  have heq : sinval (sinfitOffset cs (sinfitN periods)) (sinfitModes periods cs) t =
      sinval offset0 (periods.zip (amps.zip phases)) t := by
    rw [sinval_modes_eq, ← dotL_designRow periods t cs hlst.1]
    exact hterm t ht
  refine ⟨heq, ?_⟩
  rw [heq, sub_self, abs_zero]
  positivity

/-- Witness for C4: the constant signal `5` (one period `1`, amplitude `0`,
phase `0`) sampled at `t = 0`; the coefficient vector `[0, 5, 0]` attains
residual zero, so it is a least-squares solution, and the evaluated fit
reproduces the signal value `5` exactly. -/
theorem sinfit_sinval_roundtrip_witness :
    sinval (sinfitOffset [0, 5, 0] (sinfitN [1])) (sinfitModes [1] [0, 5, 0]) 0 =
      sinval 5 (([1] : List ℚ).zip (([0] : List ℝ).zip ([0] : List ℝ))) 0
    ∧ sinval 5 (([1] : List ℚ).zip (([0] : List ℝ).zip ([0] : List ℝ))) 0 = 5 := by
  have hsv : sinval 5 (([1] : List ℚ).zip (([0] : List ℝ).zip ([0] : List ℝ))) 0 = 5 := by
    simp [sinval]
  have hlst : IsLstsqSol [1] (([0] : List ℝ).map (fun t =>
      (t, sinval 5 (([1] : List ℚ).zip (([0] : List ℝ).zip ([0] : List ℝ))) t)))
      [0, 5, 0] := by
    constructor
    · rfl
    · intro cs2 _
      have hL : lstsqResidual [1] (([0] : List ℝ).map (fun t =>
          (t, sinval 5 (([1] : List ℚ).zip (([0] : List ℝ).zip ([0] : List ℝ))) t)))
          [0, 5, 0] = 0 := by
        simp only [List.map_cons, List.map_nil, hsv]
        simp [lstsqResidual, dotL, designRow, sinfitCols, sinfitFreqs, sortDesc,
          List.insertionSort, List.orderedInsert, colEval]
      rw [hL]
      apply List.sum_nonneg
      intro x hx
      rcases List.mem_map.mp hx with ⟨s, _, rfl⟩
      exact pow_two_nonneg _
  have h := sinfit_sinval_roundtrip [1] [0] [0] 5 [0] (by simp) rfl rfl
    [0, 5, 0] hlst 0 (by simp)
  exact ⟨h.1, hsv⟩

end Xscale
